import Mathlib

/-!
Verification of the request-body transformation pipeline of a reverse proxy
(`main.go`).  The pipeline rewrites POST bodies sent to the `/v1/responses`
route: it scans for three JSON keys at byte level, injects a derived
`prompt_cache_key` field, and migrates a top-level `instructions` string into
a developer-role message prepended to `input`.

Bytes are modelled as natural numbers (`List Nat`); all definitions are
executable.  External libraries (gzip, the sonic JSON encoder) appear as
explicit function parameters where their failure behaviour matters; the JSON
tree operations of the sonic `ast` package are modelled by an executable
JSON document type with a parser and a canonical serializer.
-/

set_option maxHeartbeats 1000000

/-- Byte strings: each element is one byte (only values < 256 arise). -/
abbrev B := List Nat

/-- ASCII bytes of a Lean string literal (all literals used are ASCII). -/
def strB (s : String) : B := s.toList.map Char.toNat

/-- `isWS` from main.go: space, tab, newline, carriage return. -/
def isWS (c : Nat) : Bool := c == 32 || c == 9 || c == 10 || c == 13

/-- Drop the longest whitespace prefix (the `for pos < len(bs) && isWS` loops). -/
def skipWS : B → B
  | [] => []
  | c :: t => if isWS c then skipWS t else c :: t

/-- Split off the longest whitespace prefix, returning (prefix, rest). -/
def wsSplit : B → B × B
  | [] => ([], [])
  | c :: t =>
    if isWS c then
      let p := wsSplit t
      (c :: p.1, p.2)
    else ([], c :: t)

/-- `bytes.Index`: index of the first occurrence of `pat` as a contiguous
sublist of `s`, if any. -/
def indexOfSub : B → B → Option Nat
  | s, pat =>
    if pat.isPrefixOf s then some 0
    else
      match s with
      | [] => none
      | _ :: t => (indexOfSub t pat).map (· + 1)

/-- After a candidate key occurrence: skip whitespace, require a colon
(`for pos < len(bs) && isWS(bs[pos])` then `bs[pos] == ':'`). -/
def colonAfterWS (l : B) : Bool :=
  match skipWS l with
  | 58 :: _ => true
  | _ => false

/-- The loop body of `hasJSONKey`, with fuel for termination; the Go loop
advances `off` past each failed occurrence by one byte. -/
def hasJSONKeyAux : Nat → B → B → Bool
  | 0, _, _ => false
  | fuel + 1, s, key =>
    match indexOfSub s key with
    | none => false
    | some idx =>
      if colonAfterWS (s.drop (idx + key.length)) then true
      else hasJSONKeyAux fuel (s.drop (idx + 1)) key

/-- `hasJSONKey` from main.go: fast-path scan confirming that `key` occurs
followed, after optional whitespace, by a colon. -/
def hasJSONKey (bs key : B) : Bool := hasJSONKeyAux (bs.length + 1) bs key

/-- Scanner pattern for the instructions key (with quotes). -/
def kInstrKey : B := strB "\"instructions\""

/-- Scanner pattern for the prompt_cache_key key (with quotes). -/
def kPromptCacheKey : B := strB "\"prompt_cache_key\""

/-- Scanner pattern for the previous_response_id key (with quotes). -/
def kPrevRespIDKey : B := strB "\"previous_response_id\""

/-- `isResponsesPath` from main.go: length check then literal suffix compare. -/
def isResponsesPath (p : B) : Bool :=
  let suf := strB "/v1/responses"
  if p.length < suf.length then false
  else p.drop (p.length - suf.length) == suf

/-- `injectPromptCacheKeyFast` from main.go: pure byte insertion of the
`prompt_cache_key` field right after the opening brace of a JSON object.
Returns `none` when the body does not start (after whitespace) with a brace. -/
def injectPromptCacheKeyFast (bs key : B) : Option B :=
  let p := wsSplit bs
  match p.2 with
  | 123 :: t =>
    let hdr := p.1 ++ [123] ++ strB "\"prompt_cache_key\":\"" ++ key ++ [34]
    let q := wsSplit t
    match q.2 with
    | 125 :: u => some (hdr ++ (125 :: u))
    | _ => some (hdr ++ [44] ++ t)
  | _ => none

/-! ### SHA-256 (crypto/sha256) and hex encoding (encoding/hex)

A faithful executable FIPS 180-4 SHA-256 over byte lists, with 32-bit words
as naturals reduced mod 2^32. -/

/-- Truncate to a 32-bit word. -/
def w32 (x : Nat) : Nat := x % 4294967296

/-- Rotate a 32-bit word right by `n`. -/
def rotr (n x : Nat) : Nat := w32 (x / 2 ^ n + x % 2 ^ n * 2 ^ (32 - n))

/-- Bitwise complement on 32-bit words. -/
def not32 (x : Nat) : Nat := Nat.xor x 4294967295

/-- SHA-256 round constants. -/
def shaK : List Nat :=
  [1116352408, 1899447441, 3049323471, 3921009573, 961987163, 1508970993,
   2453635748, 2870763221, 3624381080, 310598401, 607225278, 1426881987,
   1925078388, 2162078206, 2614888103, 3248222580, 3835390401, 4022224774,
   264347078, 604807628, 770255983, 1249150122, 1555081692, 1996064986,
   2554220882, 2821834349, 2952996808, 3210313671, 3336571891, 3584528711,
   113926993, 338241895, 666307205, 773529912, 1294757372, 1396182291,
   1695183700, 1986661051, 2177026350, 2456956037, 2730485921, 2820302411,
   3259730800, 3345764771, 3516065817, 3600352804, 4094571909, 275423344,
   430227734, 506948616, 659060556, 883997877, 958139571, 1322822218,
   1537002063, 1747873779, 1955562222, 2024104815, 2227730452, 2361852424,
   2428436474, 2756734187, 3204031479, 3329325298]

/-- SHA-256 initial hash value. -/
def shaH0 : List Nat :=
  [1779033703, 3144134277, 1013904242, 2773480762,
   1359893119, 2600822924, 528734635, 1541459225]

/-- 64-bit big-endian length field of the padding. -/
def lenBytes64 (n : Nat) : B :=
  [n / 2 ^ 56 % 256, n / 2 ^ 48 % 256, n / 2 ^ 40 % 256, n / 2 ^ 32 % 256,
   n / 2 ^ 24 % 256, n / 2 ^ 16 % 256, n / 2 ^ 8 % 256, n % 256]

/-- SHA-256 message padding. -/
def padMsg (m : B) : B :=
  m ++ 128 :: List.replicate ((119 - m.length % 64) % 64) 0
    ++ lenBytes64 (8 * m.length)

/-- Split a byte list into 64-byte chunks. -/
def chunks64 : B → List B
  | [] => []
  | c :: t => ((c :: t).take 64) :: chunks64 ((c :: t).drop 64)
termination_by l => l.length
decreasing_by simp [List.length_drop]; omega

/-- Big-endian 32-bit words from bytes. -/
def bytesToWords : B → List Nat
  | a :: b :: c :: d :: t =>
    (a * 16777216 + b * 65536 + c * 256 + d) :: bytesToWords t
  | _ => []

/-- Message-schedule extension step applied `n` times. -/
def sched (ws : List Nat) : Nat → List Nat
  | 0 => ws
  | n + 1 =>
    let l := sched ws n
    let i := l.length
    let s0 := Nat.xor (rotr 7 (l.getD (i - 15) 0))
      (Nat.xor (rotr 18 (l.getD (i - 15) 0)) (l.getD (i - 15) 0 / 2 ^ 3))
    let s1 := Nat.xor (rotr 17 (l.getD (i - 2) 0))
      (Nat.xor (rotr 19 (l.getD (i - 2) 0)) (l.getD (i - 2) 0 / 2 ^ 10))
    l ++ [w32 (l.getD (i - 16) 0 + s0 + l.getD (i - 7) 0 + s1)]

/-- One SHA-256 compression round. -/
def shaRound (st : List Nat) (k w : Nat) : List Nat :=
  match st with
  | [a, b, c, d, e, f, g, h] =>
    let s1 := Nat.xor (rotr 6 e) (Nat.xor (rotr 11 e) (rotr 25 e))
    let ch := Nat.xor (Nat.land e f) (Nat.land (not32 e) g)
    let t1 := w32 (h + s1 + ch + k + w)
    let s0 := Nat.xor (rotr 2 a) (Nat.xor (rotr 13 a) (rotr 22 a))
    let mj := Nat.xor (Nat.land a b) (Nat.xor (Nat.land a c) (Nat.land b c))
    let t2 := w32 (s0 + mj)
    [w32 (t1 + t2), a, b, c, w32 (d + t1), e, f, g]
  | _ => st

/-- Compress one 64-byte chunk into the running hash state. -/
def compressChunk (h : List Nat) (chunk : B) : List Nat :=
  let ws := sched (bytesToWords chunk) 48
  let st := (shaK.zip ws).foldl (fun s kw => shaRound s kw.1 kw.2) h
  (h.zip st).map (fun p => w32 (p.1 + p.2))

/-- Big-endian bytes of a 32-bit word. -/
def wordBytes (x : Nat) : B :=
  [x / 16777216 % 256, x / 65536 % 256, x / 256 % 256, x % 256]

/-- `sha256.Sum256`: the full SHA-256 digest (32 bytes). -/
def sha256 (m : B) : B :=
  ((chunks64 (padMsg m)).foldl compressChunk shaH0).flatMap wordBytes

/-- One hex digit (lowercase), as in encoding/hex. -/
def hexDigit (n : Nat) : Nat := if n < 10 then 48 + n else 87 + n

/-- `hex.EncodeToString` over bytes. -/
def hexEncode (l : B) : B := l.flatMap (fun b => [hexDigit (b / 16), hexDigit (b % 16)])

/-! ### The request model

The projection of Go's `*http.Request` that the pipeline reads or writes.
Header lookups (`Header.Get`) return the empty string when absent, so the
identity headers are plain byte strings; the three headers the pipeline
deletes or rewrites are `Option` so that removal is observable. -/

structure Request where
  method : B
  path : B
  body : Option B
  contentLength : Int
  clHdr : Option B
  teHdr : Option B
  ceHdr : Option B
  transferEncoding : List B
  authorization : B
  xApiKey : B
  apiKey : B
  userAgent : B
  remoteAddr : B
deriving Repr, DecidableEq

/-- The identity material of `derivePromptCacheKey`: priority
Authorization > x-api-key > api-key > RemoteAddr+"|"+User-Agent
(`Header.Get` returns the empty string for an absent header). -/
def identityMaterial (r : Request) : B :=
  if r.authorization ≠ [] then r.authorization
  else if r.xApiKey ≠ [] then r.xApiKey
  else if r.apiKey ≠ [] then r.apiKey
  else r.remoteAddr ++ [124] ++ r.userAgent

/-- `derivePromptCacheKey` from main.go: hash the identity material with
sha256, truncate to 16 bytes, hex encode (32 hex chars). -/
def derivePromptCacheKey (r : Request) : B :=
  hexEncode ((sha256 (identityMaterial r)).take 16)

/-- Decimal byte string of a natural (strconv.Itoa for lengths). -/
def natToDec (n : Nat) : B := (Nat.toDigits 10 n).map Char.toNat

/-- `setBody` from main.go: install a new body, recompute `Content-Length`
(header and field), clear any chunked transfer-encoding indication. -/
def setBody (r : Request) (out : B) : Request :=
  { r with
    body := some out
    contentLength := (out.length : Int)
    clHdr := some (natToDec out.length)
    teHdr := none
    transferEncoding := [] }

/-! ### The JSON document model (sonic `ast` nodes)

Strings and numbers keep their raw byte content (sonic nodes are lazy and
re-emit raw source text for untouched scalars); objects are ordered field
lists, `Get`/`Set`/`Unset` act on the first matching key, as sonic does. -/

inductive Json where
  | null : Json
  | bool : Bool → Json
  | num : B → Json
  | str : B → Json
  | arr : List Json → Json
  | obj : List (B × Json) → Json
deriving Repr

/-- `Node.Get`: first field with the given key. -/
def jLookup : List (B × Json) → B → Option Json
  | [], _ => none
  | (k, v) :: t, key => if k = key then some v else jLookup t key

/-- `Node.Set`: replace the first field with the given key in place, or
append a new field at the end. -/
def setKey : List (B × Json) → B → Json → List (B × Json)
  | [], key, v => [(key, v)]
  | (k, w) :: t, key, v => if k = key then (key, v) :: t else (k, w) :: setKey t key v

/-- `Node.Unset`: remove the first field with the given key. -/
def eraseKey : List (B × Json) → B → List (B × Json)
  | [], _ => []
  | (k, w) :: t, key => if k = key then t else (k, w) :: eraseKey t key

/-- Insert at an index (list splice). -/
def insertAt (n : Nat) (x : α) (xs : List α) : List α := xs.take n ++ x :: xs.drop n

/-- Remove the element at an index. -/
def eraseAt (n : Nat) (xs : List α) : List α := xs.take n ++ xs.drop (n + 1)

/-- `Node.Move(dst, src)`: move the element at `src` to position `dst`. -/
def listMove (dst src : Nat) (xs : List α) : List α :=
  match xs.get? src with
  | none => xs
  | some x => insertAt dst x (eraseAt src xs)

/-- The in-place prepend of the array case: `Add` at the end, then if the
resulting length exceeds one, `Move(0, n-1)`. -/
def arrayPrepend (dev : Json) (es : List Json) : List Json :=
  let es2 := es ++ [dev]
  if es2.length > 1 then listMove 0 (es2.length - 1) es2 else es2

/-! ### Canonical serializer (sonic encoder with `NoEncoderNewline`) -/

mutual
/-- Serialize a document: minimal separators, raw scalar content verbatim. -/
def serialize : Json → B
  | .null => strB "null"
  | .bool true => strB "true"
  | .bool false => strB "false"
  | .num r => r
  | .str r => 34 :: r ++ [34]
  | .arr es => 91 :: serArr es ++ [93]
  | .obj fs => 123 :: serObj fs ++ [125]

/-- Serialize array elements, comma separated. -/
def serArr : List Json → B
  | [] => []
  | [e] => serialize e
  | e :: e2 :: t => serialize e ++ 44 :: serArr (e2 :: t)

/-- Serialize object fields, comma separated. -/
def serObj : List (B × Json) → B
  | [] => []
  | [(k, v)] => 34 :: k ++ 34 :: 58 :: serialize v
  | (k, v) :: f2 :: t => 34 :: k ++ 34 :: 58 :: serialize v ++ 44 :: serObj (f2 :: t)
end

/-! ### Parser (sonic `ast.Parser.Parse`) -/

/-- Scan string content up to the closing quote; a backslash consumes the
following byte.  Returns the raw content (escapes kept) and the rest. -/
def scanStr : B → Option (B × B)
  | [] => none
  | c :: t =>
    if c = 34 then some ([], t)
    else if c = 92 then
      match t with
      | [] => none
      | d :: t2 => (scanStr t2).map (fun p => (92 :: d :: p.1, p.2))
    else (scanStr t).map (fun p => (c :: p.1, p.2))

/-- Bytes that may appear in a JSON number literal. -/
def isNumChar (c : Nat) : Bool :=
  (48 ≤ c && c ≤ 57) || c == 45 || c == 43 || c == 46 || c == 101 || c == 69

mutual
/-- Parse one JSON value (fuel-indexed recursive descent). -/
def parseVal : Nat → B → Option (Json × B)
  | 0, _ => none
  | fuel + 1, s =>
    match skipWS s with
    | [] => none
    | c :: t =>
      if c = 34 then (scanStr t).map (fun p => (Json.str p.1, p.2))
      else if c = 123 then
        match skipWS t with
        | 125 :: r => some (Json.obj [], r)
        | _ => (parseFields fuel t).map (fun p => (Json.obj p.1, p.2))
      else if c = 91 then
        match skipWS t with
        | 93 :: r => some (Json.arr [], r)
        | _ => (parseElems fuel t).map (fun p => (Json.arr p.1, p.2))
      else if (strB "null").isPrefixOf (c :: t) then some (Json.null, (c :: t).drop 4)
      else if (strB "true").isPrefixOf (c :: t) then some (Json.bool true, (c :: t).drop 4)
      else if (strB "false").isPrefixOf (c :: t) then some (Json.bool false, (c :: t).drop 5)
      else if isNumChar c then
        some (Json.num ((c :: t).takeWhile isNumChar), (c :: t).dropWhile isNumChar)
      else none

/-- Parse the fields of a non-empty object body (after the opening brace). -/
def parseFields : Nat → B → Option (List (B × Json) × B)
  | 0, _ => none
  | fuel + 1, s =>
    match skipWS s with
    | 34 :: t =>
      match scanStr t with
      | some (k, r1) =>
        match skipWS r1 with
        | 58 :: r2 =>
          match parseVal fuel r2 with
          | some (v, r3) =>
            match skipWS r3 with
            | 44 :: r4 => (parseFields fuel r4).map (fun p => ((k, v) :: p.1, p.2))
            | 125 :: r4 => some ([(k, v)], r4)
            | _ => none
          | none => none
        | _ => none
      | none => none
    | _ => none

/-- Parse the elements of a non-empty array body (after the opening bracket). -/
def parseElems : Nat → B → Option (List Json × B)
  | 0, _ => none
  | fuel + 1, s =>
    match parseVal fuel s with
    | some (v, r1) =>
      match skipWS r1 with
      | 44 :: r2 => (parseElems fuel r2).map (fun p => (v :: p.1, p.2))
      | 93 :: r2 => some ([v], r2)
      | _ => none
    | none => none
end

/-- Parse a whole body into a document; trailing non-whitespace is an error. -/
def parse (bs : B) : Option Json :=
  match parseVal (bs.length + 1) bs with
  | some (j, rest) => if skipWS rest = [] then some j else none
  | none => none

/-! ### The tree mutation (the AST path of `tweakBodySonic`) -/

/-- Raw key content of `prompt_cache_key` (no quotes). -/
def pckName : B := strB "prompt_cache_key"

/-- Raw key content of `instructions`. -/
def instrName : B := strB "instructions"

/-- Raw key content of `input`. -/
def inputName : B := strB "input"

/-- Field-level ensure-step: if `prompt_cache_key` is absent or null, set it. -/
def ensureFields (fs : List (B × Json)) (key : B) : List (B × Json) :=
  match jLookup fs pckName with
  | none => setKey fs pckName (.str key)
  | some .null => setKey fs pckName (.str key)
  | some _ => fs

/-- Ensure-step of the AST path: if `prompt_cache_key` is absent or null on
an object root, set it to the derived key.  On a null root `Get` yields a
non-existent node, and sonic's `Set` then converts the root to an object
holding only the new key; on any other non-object root `Set` fails with an
unsupported-type error the code ignores, leaving the tree unchanged. -/
def ensurePCK (j : Json) (key : B) : Json :=
  match j with
  | .obj fs => .obj (ensureFields fs key)
  | .null => .obj [(pckName, .str key)]
  | _ => j

/-- The developer-role message wrapping the instruction text. -/
def devMsg (s : B) : Json :=
  Json.obj [(strB "role", .str (strB "developer")), (strB "content", .str s)]

/-- The user-role message wrapping a string `input`. -/
def userMsg (u : B) : Json :=
  Json.obj [(strB "role", .str (strB "user")), (strB "content", .str u)]

/-- Instruction-migration step of the AST path: when the top-level
`instructions` field exists with a string value, remove it, wrap it in a
developer message, and restructure `input` by case. -/
def rewriteInstr (j : Json) : Json :=
  match j with
  | .obj fs =>
    match jLookup fs instrName with
    | some (.str s) =>
      let fs1 := eraseKey fs instrName
      let dev := devMsg s
      match jLookup fs1 inputName with
      | none => .obj (setKey fs1 inputName (.arr [dev]))
      | some .null => .obj (setKey fs1 inputName (.arr [dev]))
      | some (.str u) => .obj (setKey fs1 inputName (.arr [dev, userMsg u]))
      | some (.arr es) => .obj (setKey fs1 inputName (.arr (arrayPrepend dev es)))
      | some _ => .obj (setKey fs1 inputName (.arr [dev]))
    | _ => j
  | _ => j

/-- The model encoder: the canonical serializer, always successful.  The
pipeline is parameterized over the encoder so that the error-handling
branch of the source (sonic `Encode` failure) is part of the model. -/
def encodeModel (j : Json) : Option B := some (serialize j)

/-- The tree mutation applied by the AST path: ensure `prompt_cache_key`
when the scanner did not find it, then migrate instructions when required. -/
def astMutate (key : B) (sr hasPrompt : Bool) (root0 : Json) : Json :=
  let root1 := if !hasPrompt then ensurePCK root0 key else root0
  if sr then rewriteInstr root1 else root1

/-- The AST path of `tweakBodySonic` (parse, ensure key, migrate
instructions, encode), with its two fallbacks to the original bytes. -/
def astPath (enc : Json → Option B) (r : Request) (bs : B) (sr hasPrompt : Bool) : Request :=
  match parse bs with
  | none => setBody r bs
  | some root0 =>
    match enc (astMutate (derivePromptCacheKey r) sr hasPrompt root0) with
    | none => setBody r bs
    | some out => setBody r out

/-- The decision core of `tweakBodySonic`, applied to the materialized
(plaintext) body bytes. -/
def tweakCore (enc : Json → Option B) (r : Request) (bs : B) : Request :=
  let needInstr := hasJSONKey bs kInstrKey
  let hasPrompt := hasJSONKey bs kPromptCacheKey
  let hasPrev := hasJSONKey bs kPrevRespIDKey
  let sr := needInstr && !hasPrev
  let fastOut : Option B :=
    if !sr && !hasPrompt then injectPromptCacheKeyFast bs (derivePromptCacheKey r)
    else none
  match fastOut with
  | some out => setBody r out
  | none =>
    if !sr && hasPrompt then setBody r bs
    else astPath enc r bs sr hasPrompt

/-- Header value "gzip". -/
def gzipB : B := strB "gzip"

/-- `tweakBodySonic`, parameterized over the gzip decoder and the JSON
encoder.  A nil body returns immediately; a gzip body is decoded fully
first (decode failure consumes the body and leaves the request otherwise
untouched — the fail-closed gap of the source); on success the
`Content-Encoding` header is removed before the core runs. -/
def tweakBodySonicG (gz : B → Option B) (enc : Json → Option B) (r : Request) : Request :=
  match r.body with
  | none => r
  | some raw =>
    if r.ceHdr = some gzipB then
      match gz raw with
      | none => r
      | some bs => tweakCore enc { r with ceHdr := none } bs
    else tweakCore enc r raw

/-- `tweakBodySonic` with the model JSON encoder. -/
def tweakBodySonic (gz : B → Option B) (r : Request) : Request :=
  tweakBodySonicG gz encodeModel r

/-- The request-mutating part of the proxy `Director`: the body tweak runs
exactly on POST requests whose path ends in `/v1/responses` (upstream-host
wiring is transport configuration, out of scope). -/
def director (gz : B → Option B) (r : Request) : Request :=
  if r.method = strB "POST" && isResponsesPath r.path then tweakBodySonic gz r else r

/-! ### Basic lemmas: body swap, whitespace, branch unfolding -/

@[simp] theorem setBody_body (r : Request) (out : B) : (setBody r out).body = some out := rfl

@[simp] theorem setBody_contentLength (r : Request) (out : B) :
    (setBody r out).contentLength = (out.length : Int) := rfl

@[simp] theorem setBody_clHdr (r : Request) (out : B) :
    (setBody r out).clHdr = some (natToDec out.length) := rfl

@[simp] theorem setBody_teHdr (r : Request) (out : B) : (setBody r out).teHdr = none := rfl

@[simp] theorem setBody_transferEncoding (r : Request) (out : B) :
    (setBody r out).transferEncoding = [] := rfl

@[simp] theorem setBody_ceHdr (r : Request) (out : B) : (setBody r out).ceHdr = r.ceHdr := rfl

@[simp] theorem setBody_method (r : Request) (out : B) : (setBody r out).method = r.method := rfl

@[simp] theorem setBody_path (r : Request) (out : B) : (setBody r out).path = r.path := rfl

@[simp] theorem setBody_authorization (r : Request) (out : B) :
    (setBody r out).authorization = r.authorization := rfl

@[simp] theorem setBody_xApiKey (r : Request) (out : B) :
    (setBody r out).xApiKey = r.xApiKey := rfl

@[simp] theorem setBody_apiKey (r : Request) (out : B) :
    (setBody r out).apiKey = r.apiKey := rfl

@[simp] theorem setBody_userAgent (r : Request) (out : B) :
    (setBody r out).userAgent = r.userAgent := rfl

@[simp] theorem setBody_remoteAddr (r : Request) (out : B) :
    (setBody r out).remoteAddr = r.remoteAddr := rfl

/-- The derived key only depends on identity fields, which `setBody` keeps. -/
theorem derive_setBody (r : Request) (out : B) :
    derivePromptCacheKey (setBody r out) = derivePromptCacheKey r := rfl

@[simp] theorem skipWS_nil : skipWS [] = [] := rfl

theorem skipWS_cons_ws (c : Nat) (t : B) (h : isWS c = true) :
    skipWS (c :: t) = skipWS t := by simp [skipWS, h]

theorem skipWS_cons_not (c : Nat) (t : B) (h : isWS c = false) :
    skipWS (c :: t) = c :: t := by simp [skipWS, h]

theorem skipWS_ws_append (w l : B) (h : ∀ c ∈ w, isWS c = true) :
    skipWS (w ++ l) = skipWS l := by
  induction w with
  | nil => rfl
  | cons c t ih =>
    have hc : isWS c = true := h c (by simp)
    simp only [List.cons_append, skipWS_cons_ws c _ hc]
    exact ih (fun c hc2 => h c (by simp [hc2]))

theorem wsSplit_eq (bs : B) : bs = (wsSplit bs).1 ++ (wsSplit bs).2 := by
  induction bs with
  | nil => rfl
  | cons c t ih =>
    by_cases h : isWS c = true
    · simp only [wsSplit, h, if_pos rfl]
      simpa using congrArg (c :: ·) ih
    · replace h : isWS c = false := by revert h; cases isWS c <;> simp
      simp [wsSplit, h]

theorem wsSplit_fst_ws (bs : B) : ∀ c ∈ (wsSplit bs).1, isWS c = true := by
  induction bs with
  | nil => intro c hc; simp [wsSplit] at hc
  | cons c t ih =>
    by_cases h : isWS c = true
    · simp only [wsSplit, h, if_pos rfl]
      intro d hd
      rcases List.mem_cons.mp hd with h1 | h1
      · exact h1 ▸ h
      · exact ih d h1
    · replace h : isWS c = false := by revert h; cases isWS c <;> simp
      simp [wsSplit, h]

theorem wsSplit_snd (bs : B) : (wsSplit bs).2 = skipWS bs := by
  induction bs with
  | nil => rfl
  | cons c t ih =>
    by_cases h : isWS c = true
    · simp only [wsSplit, skipWS, h, if_pos rfl]; exact ih
    · replace h : isWS c = false := by revert h; cases isWS c <;> simp
      simp [wsSplit, skipWS, h]

theorem skipWS_decomp (l : B) :
    ∃ w, l = w ++ skipWS l ∧ ∀ c ∈ w, isWS c = true := by
  refine ⟨(wsSplit l).1, ?_, wsSplit_fst_ws l⟩
  conv_lhs => rw [wsSplit_eq l]
  rw [wsSplit_snd]

/-- Branch lemma: scanner-positive for the key, no rewrite required:
unchanged passthrough of the buffered bytes. -/
theorem tweakCore_pass (enc : Json → Option B) (r : Request) (bs : B)
    (hsr : (hasJSONKey bs kInstrKey && !hasJSONKey bs kPrevRespIDKey) = false)
    (hp : hasJSONKey bs kPromptCacheKey = true) :
    tweakCore enc r bs = setBody r bs := by
  unfold tweakCore
  simp [hsr, hp]

/-- Branch lemma: fast splice applies. -/
theorem tweakCore_fast (enc : Json → Option B) (r : Request) (bs : B) {out : B}
    (hsr : (hasJSONKey bs kInstrKey && !hasJSONKey bs kPrevRespIDKey) = false)
    (hp : hasJSONKey bs kPromptCacheKey = false)
    (hinj : injectPromptCacheKeyFast bs (derivePromptCacheKey r) = some out) :
    tweakCore enc r bs = setBody r out := by
  unfold tweakCore
  simp [hsr, hp, hinj]

/-- Branch lemma: fast splice not applicable, fall through to the AST path. -/
theorem tweakCore_fastfail (enc : Json → Option B) (r : Request) (bs : B)
    (hsr : (hasJSONKey bs kInstrKey && !hasJSONKey bs kPrevRespIDKey) = false)
    (hp : hasJSONKey bs kPromptCacheKey = false)
    (hinj : injectPromptCacheKeyFast bs (derivePromptCacheKey r) = none) :
    tweakCore enc r bs = astPath enc r bs false false := by
  unfold tweakCore
  simp [hsr, hp, hinj]

/-- Branch lemma: instruction rewrite required: AST path. -/
theorem tweakCore_sr (enc : Json → Option B) (r : Request) (bs : B)
    (hsr : (hasJSONKey bs kInstrKey && !hasJSONKey bs kPrevRespIDKey) = true) :
    tweakCore enc r bs = astPath enc r bs true (hasJSONKey bs kPromptCacheKey) := by
  unfold tweakCore
  simp [hsr]

/-- The non-gzip entry: the core runs directly on the buffered bytes. -/
theorem tweak_nonGzip (gz : B → Option B) (enc : Json → Option B) (r : Request) (bs : B)
    (hb : r.body = some bs) (hce : r.ceHdr ≠ some gzipB) :
    tweakBodySonicG gz enc r = tweakCore enc r bs := by
  unfold tweakBodySonicG
  rw [hb]
  simp [hce]

/-- AST-path equation: parse failure falls back to the original buffer. -/
theorem astPath_parse_none (enc : Json → Option B) (r : Request) (bs : B) (sr hp : Bool)
    (h : parse bs = none) : astPath enc r bs sr hp = setBody r bs := by
  unfold astPath
  rw [h]

/-- AST-path equation: parse success hands the mutated tree to the encoder. -/
theorem astPath_parse_some (enc : Json → Option B) (r : Request) (bs : B) (sr hp : Bool)
    (j : Json) (h : parse bs = some j) :
    astPath enc r bs sr hp =
      (match enc (astMutate (derivePromptCacheKey r) sr hp j) with
       | none => setBody r bs
       | some out => setBody r out) := by
  unfold astPath
  rw [h]

/-- AST-path equation: encoder failure falls back to the original buffer. -/
theorem astPath_enc_none (enc : Json → Option B) (r : Request) (bs : B) (sr hp : Bool)
    (j : Json) (h : parse bs = some j)
    (h2 : enc (astMutate (derivePromptCacheKey r) sr hp j) = none) :
    astPath enc r bs sr hp = setBody r bs := by
  rw [astPath_parse_some enc r bs sr hp j h, h2]

/-- AST-path equation: encoder success installs the encoded tree. -/
theorem astPath_enc_some (enc : Json → Option B) (r : Request) (bs : B) (sr hp : Bool)
    (j : Json) (out : B) (h : parse bs = some j)
    (h2 : enc (astMutate (derivePromptCacheKey r) sr hp j) = some out) :
    astPath enc r bs sr hp = setBody r out := by
  rw [astPath_parse_some enc r bs sr hp j h, h2]

/-- Every branch of the AST path installs a body through `setBody`. -/
theorem astPath_ex (enc : Json → Option B) (r : Request) (bs : B) (sr hp : Bool) :
    ∃ out, astPath enc r bs sr hp = setBody r out := by
  cases h : parse bs with
  | none => exact ⟨bs, astPath_parse_none enc r bs sr hp h⟩
  | some j =>
    cases h2 : enc (astMutate (derivePromptCacheKey r) sr hp j) with
    | none => exact ⟨bs, astPath_enc_none enc r bs sr hp j h h2⟩
    | some o => exact ⟨o, astPath_enc_some enc r bs sr hp j o h h2⟩

/-- Every branch of the core installs a body through `setBody`. -/
theorem tweakCore_ex (enc : Json → Option B) (r : Request) (bs : B) :
    ∃ out, tweakCore enc r bs = setBody r out := by
  cases hsr : (hasJSONKey bs kInstrKey && !hasJSONKey bs kPrevRespIDKey) with
  | true =>
    rw [tweakCore_sr enc r bs hsr]
    exact astPath_ex enc r bs true (hasJSONKey bs kPromptCacheKey)
  | false =>
    cases hp : hasJSONKey bs kPromptCacheKey with
    | true => exact ⟨bs, tweakCore_pass enc r bs hsr hp⟩
    | false =>
      cases hinj : injectPromptCacheKeyFast bs (derivePromptCacheKey r) with
      | none =>
        rw [tweakCore_fastfail enc r bs hsr hp hinj]
        exact astPath_ex enc r bs false false
      | some o => exact ⟨o, tweakCore_fast enc r bs hsr hp hinj⟩

/-! ### Digest format lemmas -/

theorem shaRound_length (st : List Nat) (k w : Nat) :
    (shaRound st k w).length = st.length := by
  unfold shaRound
  split <;> simp

theorem foldl_shaRound_length (l : List (Nat × Nat)) :
    ∀ st : List Nat,
      (l.foldl (fun s kw => shaRound s kw.1 kw.2) st).length = st.length := by
  induction l with
  | nil => intro st; rfl
  | cons p t ih => intro st; rw [List.foldl_cons, ih, shaRound_length]

theorem compressChunk_length (h : List Nat) (c : B) (hh : h.length = 8) :
    (compressChunk h c).length = 8 := by
  unfold compressChunk
  rw [List.length_map, List.length_zip, foldl_shaRound_length, hh]
  omega

theorem foldl_compress_length (chunks : List B) :
    ∀ h : List Nat, h.length = 8 → (chunks.foldl compressChunk h).length = 8 := by
  induction chunks with
  | nil => intro h hh; exact hh
  | cons c t ih => intro h hh; rw [List.foldl_cons]; exact ih _ (compressChunk_length h c hh)

theorem flatMap_wordBytes_length (l : List Nat) :
    (l.flatMap wordBytes).length = 4 * l.length := by
  induction l with
  | nil => rfl
  | cons x t ih => simp [List.flatMap_cons, ih, wordBytes]; omega

theorem sha256_length (m : B) : (sha256 m).length = 32 := by
  unfold sha256
  rw [flatMap_wordBytes_length, foldl_compress_length _ _ (by rfl)]

theorem sha256_lt256 (m : B) : ∀ b ∈ sha256 m, b < 256 := by
  intro b hb
  unfold sha256 at hb
  rcases List.mem_flatMap.mp hb with ⟨x, _, hx⟩
  simp only [wordBytes, List.mem_cons, List.not_mem_nil, or_false] at hx
  rcases hx with h | h | h | h <;> subst h <;> exact Nat.mod_lt _ (by omega)

theorem hexEncode_length (l : B) : (hexEncode l).length = 2 * l.length := by
  induction l with
  | nil => rfl
  | cons x t ih => simp [hexEncode, List.flatMap_cons] at ih ⊢; omega

/-- Hex characters: ASCII digits or lowercase a–f. -/
def isHexCh (c : Nat) : Prop := (48 ≤ c ∧ c ≤ 57) ∨ (97 ≤ c ∧ c ≤ 102)

theorem hexDigit_isHex (n : Nat) (h : n < 16) : isHexCh (hexDigit n) := by
  unfold hexDigit isHexCh
  split <;> omega

theorem hexEncode_mem (l : B) (hl : ∀ b ∈ l, b < 256) :
    ∀ c ∈ hexEncode l, isHexCh c := by
  intro c hc
  rcases List.mem_flatMap.mp hc with ⟨b, hb, hcb⟩
  have hb256 := hl b hb
  simp only [List.mem_cons, List.not_mem_nil, or_false] at hcb
  rcases hcb with h | h <;> subst h
  · exact hexDigit_isHex _ (by omega)
  · exact hexDigit_isHex _ (Nat.mod_lt _ (by omega))

theorem derive_length (r : Request) : (derivePromptCacheKey r).length = 32 := by
  unfold derivePromptCacheKey
  rw [hexEncode_length, List.length_take, sha256_length]
  omega

theorem derive_hex (r : Request) : ∀ c ∈ derivePromptCacheKey r, isHexCh c := by
  intro c hc
  unfold derivePromptCacheKey at hc
  exact hexEncode_mem _ (fun b hb => sha256_lt256 _ b (List.mem_of_mem_take hb)) c hc

/-- A trivially failing gzip decoder, used to instantiate theorems at
non-gzip requests. -/
def gzNone : B → Option B := fun _ => none

/-! ### C10 -/

/-- **C10**: when the inbound request carries no body at all, the
transformation returns immediately and the request is left completely
unchanged — no body installed, no header modified — even though the
trigger predicate (POST to the target path) matched. -/
theorem c10_nil_body_untouched (gz : B → Option B) (enc : Json → Option B) (r : Request)
    (hm : r.method = strB "POST") (hpath : isResponsesPath r.path = true)
    (hb : r.body = none) : tweakBodySonicG gz enc r = r := by
  unfold tweakBodySonicG
  rw [hb]

/-- Witness for C10 at a concrete body-less POST request. -/
theorem c10_nil_body_untouched_witness :
    tweakBodySonicG gzNone encodeModel
      { method := strB "POST", path := strB "/v1/responses", body := none,
        contentLength := 0, clHdr := none, teHdr := none, ceHdr := none,
        transferEncoding := [], authorization := strB "k", xApiKey := [],
        apiKey := [], userAgent := [], remoteAddr := [] } =
      { method := strB "POST", path := strB "/v1/responses", body := none,
        contentLength := 0, clHdr := none, teHdr := none, ceHdr := none,
        transferEncoding := [], authorization := strB "k", xApiKey := [],
        apiKey := [], userAgent := [], remoteAddr := [] } :=
  c10_nil_body_untouched gzNone encodeModel _ rfl (by decide) rfl

/-! ### C9 -/

/-- Gzip entry equation: successful decode removes the encoding header and
runs the core on the plaintext. -/
theorem tweak_gzip_some (gz : B → Option B) (enc : Json → Option B) (r : Request)
    (raw bs : B) (hb : r.body = some raw) (hce : r.ceHdr = some gzipB)
    (hgz : gz raw = some bs) :
    tweakBodySonicG gz enc r = tweakCore enc { r with ceHdr := none } bs := by
  unfold tweakBodySonicG
  rw [hb]
  simp [hce, hgz]

/-- Gzip entry equation: decode failure returns without installing a body. -/
theorem tweak_gzip_fail (gz : B → Option B) (enc : Json → Option B) (r : Request)
    (raw : B) (hb : r.body = some raw) (hce : r.ceHdr = some gzipB)
    (hgz : gz raw = none) : tweakBodySonicG gz enc r = r := by
  unfold tweakBodySonicG
  rw [hb]
  simp [hce, hgz]

/-- **C9**: every path that installs a body sets `Content-Length` (header
and field) to the exact byte length of the installed body and clears any
chunked transfer-encoding indication; on successful gzip decoding the
`Content-Encoding` header is removed, so a rewritten gzip request leaves
with no `Content-Encoding` and a `Content-Length` matching the plaintext
outgoing body exactly. -/
theorem c9_body_swap_headers (gz : B → Option B) (enc : Json → Option B) (r : Request)
    (raw bs : B) (hb : r.body = some raw)
    (hmode : (r.ceHdr = some gzipB ∧ gz raw = some bs) ∨ (r.ceHdr ≠ some gzipB ∧ bs = raw)) :
    ∃ out, (tweakBodySonicG gz enc r).body = some out ∧
      (tweakBodySonicG gz enc r).contentLength = (out.length : Int) ∧
      (tweakBodySonicG gz enc r).clHdr = some (natToDec out.length) ∧
      (tweakBodySonicG gz enc r).teHdr = none ∧
      (tweakBodySonicG gz enc r).transferEncoding = [] ∧
      (r.ceHdr = some gzipB → (tweakBodySonicG gz enc r).ceHdr = none) := by
  rcases hmode with ⟨hce, hgz⟩ | ⟨hce, hraw⟩
  · rw [tweak_gzip_some gz enc r raw bs hb hce hgz]
    obtain ⟨out, hout⟩ := tweakCore_ex enc { r with ceHdr := none } bs
    rw [hout]
    exact ⟨out, rfl, rfl, rfl, rfl, rfl, fun _ => rfl⟩
  · subst hraw
    rw [tweak_nonGzip gz enc r bs hb hce]
    obtain ⟨out, hout⟩ := tweakCore_ex enc r bs
    rw [hout]
    exact ⟨out, rfl, rfl, rfl, rfl, rfl, fun h => absurd h hce⟩

/-- Concrete request used by the C9 witness. -/
def rC9 : Request :=
  { method := strB "POST", path := strB "/v1/responses",
    body := some (strB "\x7b\x7d"), contentLength := 2, clHdr := some (strB "2"),
    teHdr := some (strB "chunked"), ceHdr := none,
    transferEncoding := [strB "chunked"], authorization := strB "k", xApiKey := [],
    apiKey := [], userAgent := [], remoteAddr := [] }

/-- Witness for C9 at a concrete non-gzip request. -/
theorem c9_body_swap_headers_witness :
    ∃ out, (tweakBodySonicG gzNone encodeModel rC9).body = some out ∧
      (tweakBodySonicG gzNone encodeModel rC9).contentLength = (out.length : Int) ∧
      (tweakBodySonicG gzNone encodeModel rC9).clHdr = some (natToDec out.length) ∧
      (tweakBodySonicG gzNone encodeModel rC9).teHdr = none ∧
      (tweakBodySonicG gzNone encodeModel rC9).transferEncoding = [] ∧
      (rC9.ceHdr = some gzipB → (tweakBodySonicG gzNone encodeModel rC9).ceHdr = none) :=
  c9_body_swap_headers gzNone encodeModel rC9 (strB "\x7b\x7d") (strB "\x7b\x7d") rfl
    (Or.inr ⟨by decide, rfl⟩)

/-! ### C7 -/

/-- **C7**: on the tree path, a parse failure — or an encoder failure on
the mutated tree — abandons the rewrite and installs the original,
fully-buffered body bytes unchanged as the outgoing body. -/
theorem c7_tree_failure_fallback (gz : B → Option B) (enc : Json → Option B)
    (r : Request) (bs : B) (hb : r.body = some bs) (hce : r.ceHdr ≠ some gzipB)
    (htree : (hasJSONKey bs kInstrKey && !hasJSONKey bs kPrevRespIDKey) = true ∨
      (hasJSONKey bs kPromptCacheKey = false ∧
       injectPromptCacheKeyFast bs (derivePromptCacheKey r) = none)) :
    (parse bs = none → (tweakBodySonicG gz enc r).body = some bs) ∧
    (∀ j, parse bs = some j →
      enc (astMutate (derivePromptCacheKey r)
        (hasJSONKey bs kInstrKey && !hasJSONKey bs kPrevRespIDKey)
        (hasJSONKey bs kPromptCacheKey) j) = none →
      (tweakBodySonicG gz enc r).body = some bs) := by
  rw [tweak_nonGzip gz enc r bs hb hce]
  cases hsr : (hasJSONKey bs kInstrKey && !hasJSONKey bs kPrevRespIDKey) with
  | true =>
    rw [tweakCore_sr enc r bs hsr]
    constructor
    · intro hparse
      rw [astPath_parse_none enc r bs true _ hparse]
      rfl
    · intro j hparse henc
      rw [astPath_enc_none enc r bs true _ j hparse henc]
      rfl
  | false =>
    rcases htree with h | ⟨hp, hinj⟩
    · rw [hsr] at h; exact absurd h (by decide)
    · rw [tweakCore_fastfail enc r bs hsr hp hinj, hp]
      constructor
      · intro hparse
        rw [astPath_parse_none enc r bs false false hparse]
        rfl
      · intro j hparse henc
        rw [astPath_enc_none enc r bs false false j hparse henc]
        rfl

/-- Witness for C7: an unparsable body on the tree path falls back. -/
theorem c7_tree_failure_fallback_witness :
    (tweakBodySonicG gzNone encodeModel
      { method := strB "POST", path := strB "/v1/responses",
        body := some (strB "hello"), contentLength := 5, clHdr := none,
        teHdr := none, ceHdr := none, transferEncoding := [],
        authorization := strB "k", xApiKey := [], apiKey := [],
        userAgent := [], remoteAddr := [] }).body = some (strB "hello") :=
  (c7_tree_failure_fallback gzNone encodeModel _ (strB "hello") rfl (by decide)
    (Or.inr ⟨by decide, rfl⟩)).1 rfl

/-! ### C6 -/

/-- **C6**: cache-key derivation is a deterministic pure function of the
identity material, selected by priority Authorization, then x-api-key,
then api-key, then remote address concatenated with User-Agent; two
requests with the same non-empty Authorization yield the identical key no
matter how everything else varies; the result is the fixed-length (32
characters) lowercase-hex encoding of a 16-byte truncation of the SHA-256
digest, and depends on the credential only through that digest (the
embedding's reading of "never contains the original credential": the key
factors through the cryptographic hash and exposes only hex digits). -/
theorem c6_cache_key_derivation :
    (∀ r : Request, r.authorization ≠ [] → identityMaterial r = r.authorization) ∧
    (∀ r : Request, r.authorization = [] → r.xApiKey ≠ [] →
      identityMaterial r = r.xApiKey) ∧
    (∀ r : Request, r.authorization = [] → r.xApiKey = [] → r.apiKey ≠ [] →
      identityMaterial r = r.apiKey) ∧
    (∀ r : Request, r.authorization = [] → r.xApiKey = [] → r.apiKey = [] →
      identityMaterial r = r.remoteAddr ++ [124] ++ r.userAgent) ∧
    (∀ r : Request, derivePromptCacheKey r = hexEncode ((sha256 (identityMaterial r)).take 16)) ∧
    (∀ r1 r2 : Request, r1.authorization = r2.authorization → r1.authorization ≠ [] →
      derivePromptCacheKey r1 = derivePromptCacheKey r2) ∧
    (∀ r1 r2 : Request, sha256 (identityMaterial r1) = sha256 (identityMaterial r2) →
      derivePromptCacheKey r1 = derivePromptCacheKey r2) ∧
    (∀ r : Request, (derivePromptCacheKey r).length = 32) ∧
    (∀ r : Request, ∀ c ∈ derivePromptCacheKey r, isHexCh c) := by
  refine ⟨?_, ?_, ?_, ?_, ?_, ?_, ?_, derive_length, derive_hex⟩
  · intro r h; simp [identityMaterial, h]
  · intro r h1 h2; simp [identityMaterial, h1, h2]
  · intro r h1 h2 h3; simp [identityMaterial, h1, h2, h3]
  · intro r h1 h2 h3; simp [identityMaterial, h1, h2, h3]
  · intro r; rfl
  · intro r1 r2 heq hne
    unfold derivePromptCacheKey identityMaterial
    rw [heq] at hne ⊢
    simp [hne]
  · intro r1 r2 heq
    unfold derivePromptCacheKey
    rw [heq]

/-- Witness for C6: two concrete requests sharing an Authorization value
but nothing else produce the same 32-character key. -/
theorem c6_cache_key_derivation_witness :
    derivePromptCacheKey
      { method := strB "POST", path := strB "/v1/responses", body := some (strB "A"),
        contentLength := 1, clHdr := none, teHdr := none, ceHdr := none,
        transferEncoding := [], authorization := strB "Bearer tok", xApiKey := [],
        apiKey := [], userAgent := strB "ua-one", remoteAddr := strB "1.2.3.4:5" } =
    derivePromptCacheKey
      { method := strB "GET", path := strB "/other", body := none,
        contentLength := 0, clHdr := none, teHdr := none, ceHdr := none,
        transferEncoding := [], authorization := strB "Bearer tok",
        xApiKey := strB "zz", apiKey := strB "yy", userAgent := strB "ua-two",
        remoteAddr := strB "9.9.9.9:1" } ∧
    (derivePromptCacheKey
      { method := strB "POST", path := strB "/v1/responses", body := some (strB "A"),
        contentLength := 1, clHdr := none, teHdr := none, ceHdr := none,
        transferEncoding := [], authorization := strB "Bearer tok", xApiKey := [],
        apiKey := [], userAgent := strB "ua-one", remoteAddr := strB "1.2.3.4:5" }).length = 32 :=
  ⟨c6_cache_key_derivation.2.2.2.2.2.1 _ _ rfl (by decide),
   c6_cache_key_derivation.2.2.2.2.2.2.2.1 _⟩

/-! ### Field-list lemmas -/

/-- Top-level field lookup on a document. -/
def jGet (j : Json) (k : B) : Option Json :=
  match j with
  | .obj fs => jLookup fs k
  | _ => none

theorem jLookup_setKey_self (l : List (B × Json)) (k : B) (v : Json) :
    jLookup (setKey l k v) k = some v := by
  induction l with
  | nil => simp [setKey, jLookup]
  | cons p t ih =>
    obtain ⟨k0, v0⟩ := p
    by_cases h : k0 = k
    · simp [setKey, h, jLookup]
    · simp [setKey, h, jLookup, ih]

theorem jLookup_setKey_ne (l : List (B × Json)) (k k2 : B) (v : Json) (h : k2 ≠ k) :
    jLookup (setKey l k v) k2 = jLookup l k2 := by
  induction l with
  | nil =>
    simp only [setKey, jLookup]
    rw [if_neg (fun he : k = k2 => h he.symm)]
  | cons p t ih =>
    obtain ⟨k0, v0⟩ := p
    by_cases hk : k0 = k
    · simp only [setKey, if_pos hk, jLookup]
      rw [if_neg (fun he : k = k2 => h he.symm),
        if_neg (fun he : k0 = k2 => h (he.symm.trans hk))]
    · simp only [setKey, if_neg hk, jLookup]
      by_cases hk2 : k0 = k2
      · rw [if_pos hk2, if_pos hk2]
      · rw [if_neg hk2, if_neg hk2, ih]

theorem jLookup_eraseKey_ne (l : List (B × Json)) (k k2 : B) (h : k2 ≠ k) :
    jLookup (eraseKey l k) k2 = jLookup l k2 := by
  induction l with
  | nil => rfl
  | cons p t ih =>
    obtain ⟨k0, v0⟩ := p
    by_cases hk : k0 = k
    · simp only [eraseKey, if_pos hk, jLookup]
      rw [if_neg (fun he : k0 = k2 => h (he.symm.trans hk))]
    · simp only [eraseKey, if_neg hk, jLookup]
      by_cases hk2 : k0 = k2
      · rw [if_pos hk2, if_pos hk2]
      · rw [if_neg hk2, if_neg hk2, ih]

theorem jLookup_ensureFields_ne (fs : List (B × Json)) (key k : B) (h : k ≠ pckName) :
    jLookup (ensureFields fs key) k = jLookup fs k := by
  unfold ensureFields
  cases hpk : jLookup fs pckName with
  | none => exact jLookup_setKey_ne fs pckName k _ h
  | some v =>
    cases v with
    | null => exact jLookup_setKey_ne fs pckName k _ h
    | _ => rfl

theorem ensurePCK_jGet_ne (j : Json) (key k : B) (h : k ≠ pckName) :
    jGet (ensurePCK j key) k = jGet j k := by
  cases j with
  | obj fs => exact jLookup_ensureFields_ne fs key k h
  | null =>
    show (if pckName = k then some (Json.str key) else none) = none
    rw [if_neg (fun he : pckName = k => h he.symm)]
  | _ => rfl

theorem ensurePCK_other (j : Json) (key : B) (h : ∀ fs, j ≠ Json.obj fs)
    (hn : j ≠ Json.null) : ensurePCK j key = j := by
  cases j with
  | obj fs => exact absurd rfl (h fs)
  | null => exact absurd rfl hn
  | _ => rfl

theorem rewriteInstr_nonobj (j : Json) (h : ∀ fs, j ≠ Json.obj fs) :
    rewriteInstr j = j := by
  cases j with
  | obj fs => exact absurd rfl (h fs)
  | _ => rfl

/-- The mutation with neither flag set is exactly the ensure-step. -/
theorem astMutate_ff (key : B) (j : Json) :
    astMutate key false false j = ensurePCK j key := rfl

/-! ### The head byte of a parsed object is an opening brace -/

theorem parseVal_obj_head (f : Nat) (s : B) (fs : List (B × Json)) (r : B)
    (h : parseVal f s = some (Json.obj fs, r)) : ∃ t, skipWS s = 123 :: t := by
  match f with
  | 0 => simp [parseVal] at h
  | f + 1 =>
    rw [parseVal] at h
    cases hsk : skipWS s with
    | nil => rw [hsk] at h; exact absurd h (by simp)
    | cons c t0 =>
      rw [hsk] at h
      dsimp only at h
      split_ifs at h with h34 h123 h91 hnull htrue hfalse hnum
      case pos => rcases hscan : scanStr t0 with _ | p <;> rw [hscan] at h <;> simp at h
      case pos => exact ⟨t0, by rw [h123]⟩
      all_goals first
        | (split at h <;> simp at h)
        | simp at h

theorem parse_obj_head (bs : B) (fs : List (B × Json))
    (h : parse bs = some (Json.obj fs)) : ∃ t, skipWS bs = 123 :: t := by
  unfold parse at h
  cases hp : parseVal (bs.length + 1) bs with
  | none => rw [hp] at h; simp at h
  | some p =>
    obtain ⟨j, r⟩ := p
    rw [hp] at h
    dsimp only at h
    split at h
    · have hj : j = Json.obj fs := by
        injection h with h2
      exact parseVal_obj_head _ bs fs r (hj ▸ hp)
    · simp at h

/-- A body on which the fast splice is not applicable does not start, after
whitespace, with an opening brace. -/
theorem inject_none_head (bs key : B) (h : injectPromptCacheKeyFast bs key = none) :
    ∀ t, skipWS bs ≠ 123 :: t := by
  intro t heq
  simp only [injectPromptCacheKeyFast] at h
  rw [wsSplit_snd, heq] at h
  dsimp only at h
  split at h <;> simp at h

/-! ### C2 -/

/-- **C2**: whenever the scanner finds `previous_response_id`, no
instruction migration is performed: the outgoing body is the unchanged
input, the fast splice of the cache key (which preserves every input byte),
or the re-serialized tree in which only the `prompt_cache_key` field was
ensured — every other top-level field, in particular `instructions`, is
untouched. -/
theorem c2_prior_turn_no_migration (gz : B → Option B) (r : Request) (bs : B)
    (hb : r.body = some bs) (hce : r.ceHdr ≠ some gzipB)
    (hprev : hasJSONKey bs kPrevRespIDKey = true) :
    (tweakBodySonic gz r).body = some bs ∨
    (∃ out, injectPromptCacheKeyFast bs (derivePromptCacheKey r) = some out ∧
      (tweakBodySonic gz r).body = some out) ∨
    (∃ j, parse bs = some j ∧
      (tweakBodySonic gz r).body = some (serialize (ensurePCK j (derivePromptCacheKey r))) ∧
      ∀ k, k ≠ pckName → jGet (ensurePCK j (derivePromptCacheKey r)) k = jGet j k) := by
  have hsr : (hasJSONKey bs kInstrKey && !hasJSONKey bs kPrevRespIDKey) = false := by
    rw [hprev]
    simp
  unfold tweakBodySonic
  rw [tweak_nonGzip gz encodeModel r bs hb hce]
  cases hp : hasJSONKey bs kPromptCacheKey with
  | true =>
    rw [tweakCore_pass encodeModel r bs hsr hp]
    exact Or.inl rfl
  | false =>
    cases hinj : injectPromptCacheKeyFast bs (derivePromptCacheKey r) with
    | some out =>
      rw [tweakCore_fast encodeModel r bs hsr hp hinj]
      exact Or.inr (Or.inl ⟨out, rfl, rfl⟩)
    | none =>
      rw [tweakCore_fastfail encodeModel r bs hsr hp hinj]
      cases hparse : parse bs with
      | none =>
        rw [astPath_parse_none encodeModel r bs false false hparse]
        exact Or.inl rfl
      | some j =>
        rw [astPath_enc_some encodeModel r bs false false j
          (serialize (ensurePCK j (derivePromptCacheKey r))) hparse rfl]
        exact Or.inr (Or.inr ⟨j, rfl, rfl,
          fun k hk => ensurePCK_jGet_ne j (derivePromptCacheKey r) k hk⟩)

/-- Concrete request used by the C2 witness: the spec's multi-turn
continuation scenario. -/
def rC2 : Request :=
  { method := strB "POST", path := strB "/v1/responses",
    body := some (strB "\x7b\"instructions\":\"sys\",\"previous_response_id\":\"r1\"\x7d"),
    contentLength := 0, clHdr := none, teHdr := none, ceHdr := none,
    transferEncoding := [], authorization := strB "k", xApiKey := [],
    apiKey := [], userAgent := [], remoteAddr := [] }

/-- Witness for C2 at the multi-turn continuation scenario. -/
theorem c2_prior_turn_no_migration_witness :
    (tweakBodySonic gzNone rC2).body =
      some (strB "\x7b\"instructions\":\"sys\",\"previous_response_id\":\"r1\"\x7d") ∨
    (∃ out, injectPromptCacheKeyFast
        (strB "\x7b\"instructions\":\"sys\",\"previous_response_id\":\"r1\"\x7d")
        (derivePromptCacheKey rC2) = some out ∧
      (tweakBodySonic gzNone rC2).body = some out) ∨
    (∃ j, parse (strB "\x7b\"instructions\":\"sys\",\"previous_response_id\":\"r1\"\x7d") = some j ∧
      (tweakBodySonic gzNone rC2).body =
        some (serialize (ensurePCK j (derivePromptCacheKey rC2))) ∧
      ∀ k, k ≠ pckName →
        jGet (ensurePCK j (derivePromptCacheKey rC2)) k = jGet j k) :=
  c2_prior_turn_no_migration gzNone rC2 _ rfl (by decide) (by decide)

/-! ### C1 -/

/-- Concrete request used by the C1 counterexample: a POST to the target
path whose body contains none of the three scanned keys. -/
def rC1 : Request :=
  { method := strB "POST", path := strB "/v1/responses",
    body := some (strB "\x7b\"foo\":1\x7d"),
    contentLength := 0, clHdr := none, teHdr := none, ceHdr := none,
    transferEncoding := [], authorization := strB "x", xApiKey := [],
    apiKey := [], userAgent := [], remoteAddr := [] }

/-- **C1 counterexample**: a scanner-negative body is NOT forwarded
byte-identically — the derived `prompt_cache_key` field is injected, so the
outgoing body differs from the inbound one. -/
theorem c1_no_keys_counterexample :
    rC1.method = strB "POST" ∧ isResponsesPath rC1.path = true ∧
    hasJSONKey (strB "\x7b\"foo\":1\x7d") kInstrKey = false ∧
    hasJSONKey (strB "\x7b\"foo\":1\x7d") kPromptCacheKey = false ∧
    hasJSONKey (strB "\x7b\"foo\":1\x7d") kPrevRespIDKey = false ∧
    (director gzNone rC1).body ≠ rC1.body := by
  refine ⟨rfl, by decide, by decide, by decide, by decide, ?_⟩
  decide

/-- **C1 (amended)**: for a POST to the target path whose (plaintext) body
contains none of the three scanned keys, the pipeline is a pure cache-key
injection: when the body starts (after optional whitespace) with an
object-opening brace, the outgoing body is exactly the fast splice of the
derived key into the inbound bytes (all inbound bytes preserved); otherwise
the body is forwarded unchanged when it does not parse; a body parsing to
JSON null becomes the one-field object holding the derived key (sonic `Set`
on a null root creates the object); and any other parsed non-object body is
re-serialized without mutation. -/
theorem c1_no_keys_only_injects (gz : B → Option B) (r : Request) (bs : B)
    (hm : r.method = strB "POST") (hpath : isResponsesPath r.path = true)
    (hb : r.body = some bs) (hce : r.ceHdr ≠ some gzipB)
    (h1 : hasJSONKey bs kInstrKey = false)
    (h2 : hasJSONKey bs kPromptCacheKey = false)
    (h3 : hasJSONKey bs kPrevRespIDKey = false) :
    (∀ out, injectPromptCacheKeyFast bs (derivePromptCacheKey r) = some out →
      (director gz r).body = some out) ∧
    (injectPromptCacheKeyFast bs (derivePromptCacheKey r) = none →
      (parse bs = none → (director gz r).body = some bs) ∧
      (parse bs = some Json.null →
        (director gz r).body =
          some (serialize (Json.obj [(pckName, Json.str (derivePromptCacheKey r))]))) ∧
      (∀ j, parse bs = some j → j ≠ Json.null →
        (director gz r).body = some (serialize j))) := by
  have hdir : director gz r = tweakBodySonic gz r := by
    unfold director
    rw [hm, hpath]
    simp
  have hsr : (hasJSONKey bs kInstrKey && !hasJSONKey bs kPrevRespIDKey) = false := by
    rw [h1]
    simp
  rw [hdir]
  unfold tweakBodySonic
  rw [tweak_nonGzip gz encodeModel r bs hb hce]
  constructor
  · intro out hinj
    rw [tweakCore_fast encodeModel r bs hsr h2 hinj]
    rfl
  · intro hinj
    rw [tweakCore_fastfail encodeModel r bs hsr h2 hinj]
    refine ⟨?_, ?_, ?_⟩
    · intro hparse
      rw [astPath_parse_none encodeModel r bs false false hparse]
      rfl
    · intro hparse
      have hmut : astMutate (derivePromptCacheKey r) false false Json.null =
          Json.obj [(pckName, Json.str (derivePromptCacheKey r))] := rfl
      rw [astPath_enc_some encodeModel r bs false false Json.null
        (serialize (Json.obj [(pckName, Json.str (derivePromptCacheKey r))])) hparse
        (by rw [hmut]; rfl)]
      rfl
    · intro j hparse hnnull
      have hnotobj : ∀ fs, j ≠ Json.obj fs := by
        intro fs hj
        obtain ⟨t, ht⟩ := parse_obj_head bs fs (hj ▸ hparse)
        exact inject_none_head bs (derivePromptCacheKey r) hinj t ht
      have hmut : astMutate (derivePromptCacheKey r) false false j = j := by
        rw [astMutate_ff]
        exact ensurePCK_other j _ hnotobj hnnull
      rw [astPath_enc_some encodeModel r bs false false j (serialize j) hparse
        (by rw [hmut]; rfl)]
      rfl

/-- Witness for C1 (amended) at a concrete object body: the output is the
fast splice of the derived key into the inbound bytes. -/
theorem c1_no_keys_only_injects_witness :
    (director gzNone rC1).body =
      some (([] ++ [123] ++ strB "\"prompt_cache_key\":\"" ++ derivePromptCacheKey rC1
        ++ [34]) ++ [44] ++ strB "\"foo\":1\x7d") :=
  (c1_no_keys_only_injects gzNone rC1 (strB "\x7b\"foo\":1\x7d") rfl (by decide) rfl
    (by decide) (by decide) (by decide) (by decide)).1 _ rfl

/-! ### C4 -/

theorem append_single_get (es : List Json) (dev : Json) :
    (es ++ [dev]).get? es.length = some dev := by
  induction es with
  | nil => rfl
  | cons e t ih => simpa using ih

theorem take_len_append (es l : List Json) : (es ++ l).take es.length = es := by
  induction es with
  | nil => rfl
  | cons e t ih => simpa using ih

theorem drop_len_succ_append (es : List Json) (dev : Json) :
    (es ++ [dev]).drop (es.length + 1) = [] := by
  induction es with
  | nil => rfl
  | cons e t ih => simpa using ih

/-- The Add-then-Move sequence of the array case is exactly a prepend. -/
theorem arrayPrepend_eq (dev : Json) (es : List Json) :
    arrayPrepend dev es = dev :: es := by
  unfold arrayPrepend
  cases es with
  | nil => rfl
  | cons e t =>
    have hlen : ((e :: t) ++ [dev]).length = t.length + 2 := by simp
    rw [if_pos (by rw [hlen]; omega)]
    unfold listMove
    rw [hlen]
    have : t.length + 2 - 1 = (e :: t).length := by simp
    rw [this, append_single_get (e :: t) dev]
    unfold insertAt eraseAt
    rw [take_len_append (e :: t) [dev], drop_len_succ_append (e :: t) dev]
    simp

/-- Number of fields carrying a given key. -/
def countKey (fs : List (B × Json)) (k : B) : Nat :=
  (fs.filter (fun p => p.1 == k)).length

theorem countKey_cons_eq (k0 : B) (v0 : Json) (t : List (B × Json)) (k : B)
    (h : k0 = k) : countKey ((k0, v0) :: t) k = countKey t k + 1 := by
  simp [countKey, List.filter_cons, h]

theorem countKey_cons_ne (k0 : B) (v0 : Json) (t : List (B × Json)) (k : B)
    (h : ¬ k0 = k) : countKey ((k0, v0) :: t) k = countKey t k := by
  simp [countKey, List.filter_cons, h]

theorem countKey_zero_lookup (fs : List (B × Json)) (k : B)
    (h : countKey fs k = 0) : jLookup fs k = none := by
  induction fs with
  | nil => rfl
  | cons p t ih =>
    obtain ⟨k0, v0⟩ := p
    by_cases hk : k0 = k
    · rw [countKey_cons_eq k0 v0 t k hk] at h
      omega
    · rw [countKey_cons_ne k0 v0 t k hk] at h
      simp only [jLookup, if_neg hk]
      exact ih h

theorem countKey_le_one_erase (fs : List (B × Json)) (k : B)
    (h : countKey fs k ≤ 1) : jLookup (eraseKey fs k) k = none := by
  induction fs with
  | nil => rfl
  | cons p t ih =>
    obtain ⟨k0, v0⟩ := p
    by_cases hk : k0 = k
    · simp only [eraseKey, if_pos hk]
      rw [countKey_cons_eq k0 v0 t k hk] at h
      exact countKey_zero_lookup t k (by omega)
    · rw [countKey_cons_ne k0 v0 t k hk] at h
      simp only [eraseKey, if_neg hk, jLookup, if_neg hk]
      exact ih h

theorem countKey_setKey_ne (fs : List (B × Json)) (k k2 : B) (v : Json) (h : k2 ≠ k) :
    countKey (setKey fs k v) k2 = countKey fs k2 := by
  induction fs with
  | nil =>
    simp only [setKey]
    rw [countKey_cons_ne k v [] k2 (fun he => h he.symm)]
  | cons p t ih =>
    obtain ⟨k0, v0⟩ := p
    by_cases hk : k0 = k
    · simp only [setKey, if_pos hk]
      rw [countKey_cons_ne k v t k2 (fun he => h he.symm),
        countKey_cons_ne k0 v0 t k2 (fun he => h (he.symm.trans hk))]
    · simp only [setKey, if_neg hk]
      by_cases hk2 : k0 = k2
      · rw [countKey_cons_eq k0 _ _ k2 hk2, countKey_cons_eq k0 v0 t k2 hk2, ih]
      · rw [countKey_cons_ne k0 _ _ k2 hk2, countKey_cons_ne k0 v0 t k2 hk2, ih]

theorem countKey_ensureFields (fs : List (B × Json)) (key k : B) (h : k ≠ pckName) :
    countKey (ensureFields fs key) k = countKey fs k := by
  unfold ensureFields
  cases hpk : jLookup fs pckName with
  | none => exact countKey_setKey_ne fs pckName k _ h
  | some v =>
    cases v with
    | null => exact countKey_setKey_ne fs pckName k _ h
    | _ => rfl

/-- The restructured `input` value of the instruction-migration step. -/
def migratedInput (S : B) (fs1 : List (B × Json)) : List Json :=
  match jLookup fs1 inputName with
  | none => [devMsg S]
  | some Json.null => [devMsg S]
  | some (Json.str u) => [devMsg S, userMsg u]
  | some (Json.arr es) => arrayPrepend (devMsg S) es
  | some _ => [devMsg S]

/-- Unfolding of `rewriteInstr` on an object whose `instructions` is a
string. -/
theorem rewriteInstr_eq (fs : List (B × Json)) (S : B)
    (h : jLookup fs instrName = some (Json.str S)) :
    rewriteInstr (Json.obj fs) =
      Json.obj (setKey (eraseKey fs instrName) inputName
        (Json.arr (migratedInput S (eraseKey fs instrName)))) := by
  unfold rewriteInstr migratedInput
  dsimp only
  rw [h]
  dsimp only
  cases hl : jLookup (eraseKey fs instrName) inputName with
  | none => rfl
  | some v => cases v <;> rfl

/-- Unfolding of `rewriteInstr` when `instructions` is not a string. -/
theorem rewriteInstr_skip (fs : List (B × Json))
    (h : ∀ S, jLookup fs instrName ≠ some (Json.str S)) :
    rewriteInstr (Json.obj fs) = Json.obj fs := by
  unfold rewriteInstr
  dsimp only
  cases hl : jLookup fs instrName with
  | none => rfl
  | some v =>
    cases v with
    | str S => exact absurd hl (h S)
    | _ => rfl

/-- **C4**: when an instruction rewrite is required and the top-level
`instructions` field is a string `S`, the pipeline removes `instructions`,
wraps `S` in a developer-role message `dev`, and rewrites `input` by case:
absent or null becomes `[dev]`; a string `U` becomes `[dev, user(U)]`; an
array of length N becomes the length-N+1 array with `dev` prepended and the
original elements in order; any other type is discarded and replaced by
`[dev]`. -/
theorem c4_instruction_migration (gz : B → Option B) (r : Request) (bs S : B)
    (fs : List (B × Json))
    (hb : r.body = some bs) (hce : r.ceHdr ≠ some gzipB)
    (hsr : (hasJSONKey bs kInstrKey && !hasJSONKey bs kPrevRespIDKey) = true)
    (hparse : parse bs = some (Json.obj fs))
    (hone : countKey fs instrName ≤ 1)
    (hinstr : jLookup fs instrName = some (Json.str S)) :
    ∃ fs1 newInput,
      fs1 = eraseKey (if hasJSONKey bs kPromptCacheKey then fs
        else ensureFields fs (derivePromptCacheKey r)) instrName ∧
      newInput = migratedInput S fs1 ∧
      (tweakBodySonic gz r).body =
        some (serialize (Json.obj (setKey fs1 inputName (Json.arr newInput)))) ∧
      jLookup (setKey fs1 inputName (Json.arr newInput)) instrName = none ∧
      ((jLookup fs1 inputName = none ∨ jLookup fs1 inputName = some Json.null) →
        newInput = [devMsg S]) ∧
      (∀ u, jLookup fs1 inputName = some (Json.str u) → newInput = [devMsg S, userMsg u]) ∧
      (∀ es, jLookup fs1 inputName = some (Json.arr es) →
        newInput = devMsg S :: es ∧ newInput.length = es.length + 1) ∧
      (∀ v, jLookup fs1 inputName = some v → v ≠ Json.null → (∀ u, v ≠ Json.str u) →
        (∀ es, v ≠ Json.arr es) → newInput = [devMsg S]) := by
  have hpckInstr : instrName ≠ pckName := by decide
  have hInstrInput : instrName ≠ inputName := by decide
  obtain ⟨fs0, hfs0, hlook0, hcount0⟩ :
      ∃ fs0, fs0 = (if hasJSONKey bs kPromptCacheKey then fs
          else ensureFields fs (derivePromptCacheKey r)) ∧
        jLookup fs0 instrName = some (Json.str S) ∧ countKey fs0 instrName ≤ 1 := by
    cases hp : hasJSONKey bs kPromptCacheKey with
    | true => exact ⟨fs, by simp, hinstr, hone⟩
    | false =>
      refine ⟨ensureFields fs (derivePromptCacheKey r), by simp, ?_, ?_⟩
      · rw [jLookup_ensureFields_ne fs _ instrName hpckInstr]
        exact hinstr
      · rw [countKey_ensureFields fs _ instrName hpckInstr]
        exact hone
  refine ⟨eraseKey fs0 instrName, migratedInput S (eraseKey fs0 instrName),
    by rw [hfs0], rfl, ?_, ?_, ?_, ?_, ?_, ?_⟩
  · have hmut : astMutate (derivePromptCacheKey r) true
        (hasJSONKey bs kPromptCacheKey) (Json.obj fs) =
        Json.obj (setKey (eraseKey fs0 instrName) inputName
          (Json.arr (migratedInput S (eraseKey fs0 instrName)))) := by
      unfold astMutate
      cases hp : hasJSONKey bs kPromptCacheKey with
      | true =>
        rw [hp] at hfs0
        simp only [if_pos rfl] at hfs0
        subst hfs0
        simp only [Bool.not_true, if_true]
        exact rewriteInstr_eq fs0 S hlook0
      | false =>
        rw [hp] at hfs0
        simp only [Bool.false_eq_true, if_false] at hfs0
        simp only [Bool.not_false, if_true]
        rw [show ensurePCK (Json.obj fs) (derivePromptCacheKey r) =
          Json.obj (ensureFields fs (derivePromptCacheKey r)) from rfl, ← hfs0]
        exact rewriteInstr_eq fs0 S hlook0
    unfold tweakBodySonic
    rw [tweak_nonGzip gz encodeModel r bs hb hce, tweakCore_sr encodeModel r bs hsr,
      astPath_enc_some encodeModel r bs true (hasJSONKey bs kPromptCacheKey)
        (Json.obj fs) _ hparse (by rw [hmut]; rfl)]
    rfl
  · rw [jLookup_setKey_ne _ inputName instrName _ hInstrInput]
    exact countKey_le_one_erase fs0 instrName hcount0
  · intro h
    rcases h with h | h <;> (unfold migratedInput; rw [h])
  · intro u h
    unfold migratedInput
    rw [h]
  · intro es h
    unfold migratedInput
    rw [h]
    dsimp only
    rw [arrayPrepend_eq (devMsg S) es]
    exact ⟨rfl, by simp⟩
  · intro v h hnull hstr harr
    unfold migratedInput
    rw [h]
    cases v with
    | null => exact absurd rfl hnull
    | str u => exact absurd rfl (hstr u)
    | arr es => exact absurd rfl (harr es)
    | _ => rfl

/-- Concrete request used by the C4 witness: the spec's rewrite scenario. -/
def rC4 : Request :=
  { method := strB "POST", path := strB "/v1/responses",
    body := some (strB "\x7b\"instructions\":\"sys\",\"input\":\"hi\"\x7d"),
    contentLength := 0, clHdr := none, teHdr := none, ceHdr := none,
    transferEncoding := [], authorization := strB "k", xApiKey := [],
    apiKey := [], userAgent := [], remoteAddr := [] }

/-- The parsed field list of the C4 witness body. -/
def fsC4 : List (B × Json) :=
  [(strB "instructions", Json.str (strB "sys")), (strB "input", Json.str (strB "hi"))]

/-- Witness for C4 at the string-input rewrite scenario. -/
theorem c4_instruction_migration_witness :
    ∃ fs1 newInput,
      fs1 = eraseKey (if hasJSONKey (strB "\x7b\"instructions\":\"sys\",\"input\":\"hi\"\x7d")
          kPromptCacheKey then fsC4
        else ensureFields fsC4 (derivePromptCacheKey rC4)) instrName ∧
      newInput = migratedInput (strB "sys") fs1 ∧
      (tweakBodySonic gzNone rC4).body =
        some (serialize (Json.obj (setKey fs1 inputName (Json.arr newInput)))) ∧
      jLookup (setKey fs1 inputName (Json.arr newInput)) instrName = none ∧
      ((jLookup fs1 inputName = none ∨ jLookup fs1 inputName = some Json.null) →
        newInput = [devMsg (strB "sys")]) ∧
      (∀ u, jLookup fs1 inputName = some (Json.str u) →
        newInput = [devMsg (strB "sys"), userMsg u]) ∧
      (∀ es, jLookup fs1 inputName = some (Json.arr es) →
        newInput = devMsg (strB "sys") :: es ∧ newInput.length = es.length + 1) ∧
      (∀ v, jLookup fs1 inputName = some v → v ≠ Json.null →
        (∀ u, v ≠ Json.str u) → (∀ es, v ≠ Json.arr es) →
        newInput = [devMsg (strB "sys")]) :=
  c4_instruction_migration gzNone rC4
    (strB "\x7b\"instructions\":\"sys\",\"input\":\"hi\"\x7d") (strB "sys") fsC4
    rfl (by decide) (by decide) rfl (by decide) rfl

/-! ### Well-formed documents and parser fuel bounds -/

/-- Raw string content that re-parses exactly: no bare quote, every
backslash consumes a following byte. -/
def escOK : B → Bool
  | [] => true
  | c :: t =>
    if c = 34 then false
    else if c = 92 then
      match t with
      | [] => false
      | _ :: t2 => escOK t2
    else escOK t

mutual
/-- Well-formed document: serializing and re-parsing it is the identity. -/
def wfJ : Json → Bool
  | .null => true
  | .bool _ => true
  | .num r => !r.isEmpty && r.all isNumChar
  | .str r => escOK r
  | .arr es => wfA es
  | .obj fs => wfO fs

/-- Well-formed element list. -/
def wfA : List Json → Bool
  | [] => true
  | e :: t => wfJ e && wfA t

/-- Well-formed field list. -/
def wfO : List (B × Json) → Bool
  | [] => true
  | (k, v) :: t => escOK k && wfJ v && wfO t
end

mutual
/-- Fuel needed by `parseVal` on the serialization of a document. -/
def costV : Json → Nat
  | .arr [] => 1
  | .arr (e :: t) => 1 + costE (e :: t)
  | .obj [] => 1
  | .obj (f :: t) => 1 + costF (f :: t)
  | _ => 1

/-- Fuel needed by `parseElems` on a serialized element list. -/
def costE : List Json → Nat
  | [] => 1
  | e :: t => 1 + max (costV e) (costE t)

/-- Fuel needed by `parseFields` on a serialized field list. -/
def costF : List (B × Json) → Nat
  | [] => 1
  | (_, v) :: t => 1 + max (costV v) (costF t)
end

theorem costV_pos (j : Json) : 1 ≤ costV j := by
  cases j with
  | arr es => cases es <;> simp [costV]
  | obj fs => cases fs <;> simp [costV]
  | _ => simp [costV]

theorem costE_pos (es : List Json) : 1 ≤ costE es := by
  cases es <;> simp [costE]

theorem costF_pos (fs : List (B × Json)) : 1 ≤ costF fs := by
  cases fs with
  | nil => simp [costF]
  | cons p t => obtain ⟨k, v⟩ := p; simp [costF]

/-- Evaluation lemma for `escOK` on a cons cell. -/
theorem escOK_cons (c : Nat) (t : B) :
    escOK (c :: t) =
      if c = 34 then false
      else if c = 92 then
        match t with
        | [] => false
        | _ :: t2 => escOK t2
      else escOK t := by
  rw [escOK.eq_def]
  exact rfl

/-- Evaluation lemma for `scanStr` on a cons cell. -/
theorem scanStr_cons (c : Nat) (t : B) :
    scanStr (c :: t) =
      if c = 34 then some ([], t)
      else if c = 92 then
        match t with
        | [] => none
        | d :: t2 => (scanStr t2).map (fun p => (92 :: d :: p.1, p.2))
      else (scanStr t).map (fun p => (c :: p.1, p.2)) := by
  rw [scanStr.eq_def]
  exact rfl

/-- Scanning the concatenation of well-escaped content, a closing quote,
and a remainder returns exactly that content and remainder. -/
theorem scanStr_append : ∀ (k r : B), escOK k = true → scanStr (k ++ 34 :: r) = some (k, r)
  | [], r, _ => by
    rw [List.nil_append, scanStr_cons]
    simp
  | c :: t, r, h => by
    rw [escOK_cons] at h
    by_cases h34 : c = 34
    · rw [if_pos h34] at h
      exact absurd h (by simp)
    · rw [if_neg h34] at h
      by_cases h92 : c = 92
      · rw [if_pos h92] at h
        cases t with
        | nil => exact absurd h (by simp)
        | cons d t2 =>
          have ih := scanStr_append t2 r h
          rw [List.cons_append, scanStr_cons, if_neg h34, if_pos h92]
          dsimp only [List.cons_append]
          rw [ih, Option.map_some', h92]
      · rw [if_neg h92] at h
        have ih := scanStr_append t r h
        rw [List.cons_append, scanStr_cons, if_neg h34, if_neg h92, ih, Option.map_some']

/-- A successful string scan decomposes the input. -/
theorem scanStr_decomp : ∀ (s c r : B), scanStr s = some (c, r) → s = c ++ 34 :: r
  | [], c, r, h => by simp [scanStr] at h
  | x :: t, c, r, h => by
    rw [scanStr_cons] at h
    by_cases h34 : x = 34
    · rw [if_pos h34] at h
      simp only [Option.some_inj, Prod.mk.injEq] at h
      rw [← h.1, ← h.2, h34]
      rfl
    · rw [if_neg h34] at h
      by_cases h92 : x = 92
      · rw [if_pos h92] at h
        cases t with
        | nil => simp at h
        | cons d t2 =>
          dsimp only at h
          rcases hs : scanStr t2 with _ | p
          · rw [hs] at h; simp at h
          · rw [hs] at h
            simp only [Option.map_some', Option.some_inj, Prod.mk.injEq] at h
            obtain ⟨q, s2⟩ := p
            have ih := scanStr_decomp t2 q s2 hs
            rw [← h.1, ← h.2, h92, ih]
            rfl
      · rw [if_neg h92] at h
        rcases hs : scanStr t with _ | p
        · rw [hs] at h; simp at h
        · rw [hs] at h
          simp only [Option.map_some', Option.some_inj, Prod.mk.injEq] at h
          obtain ⟨q, s2⟩ := p
          have ih := scanStr_decomp t q s2 hs
          rw [← h.1, ← h.2, ih]
          rfl

/-- A successful string scan yields well-escaped content. -/
theorem scanStr_escOK : ∀ (s c r : B), scanStr s = some (c, r) → escOK c = true
  | [], c, r, h => by simp [scanStr] at h
  | x :: t, c, r, h => by
    rw [scanStr_cons] at h
    by_cases h34 : x = 34
    · rw [if_pos h34] at h
      simp only [Option.some_inj, Prod.mk.injEq] at h
      rw [← h.1]
      rfl
    · rw [if_neg h34] at h
      by_cases h92 : x = 92
      · rw [if_pos h92] at h
        cases t with
        | nil => simp at h
        | cons d t2 =>
          dsimp only at h
          rcases hs : scanStr t2 with _ | p
          · rw [hs] at h; simp at h
          · rw [hs] at h
            simp only [Option.map_some', Option.some_inj, Prod.mk.injEq] at h
            obtain ⟨q, s2⟩ := p
            have ih := scanStr_escOK t2 q s2 hs
            rw [← h.1, escOK_cons]
            simp [ih]
      · rw [if_neg h92] at h
        rcases hs : scanStr t with _ | p
        · rw [hs] at h; simp at h
        · rw [hs] at h
          simp only [Option.map_some', Option.some_inj, Prod.mk.injEq] at h
          obtain ⟨q, s2⟩ := p
          have ih := scanStr_escOK t q s2 hs
          rw [← h.1, escOK_cons, if_neg h34, if_neg h92]
          exact ih

/-- Byte values a JSON number may start with rule out every other branch
of the value parser. -/
theorem isNumChar_range (c : Nat) (h : isNumChar c = true) :
    (48 ≤ c ∧ c ≤ 57) ∨ c = 45 ∨ c = 43 ∨ c = 46 ∨ c = 101 ∨ c = 69 := by
  simp only [isNumChar, Bool.or_eq_true, Bool.and_eq_true, decide_eq_true_eq,
    beq_iff_eq] at h
  tauto

theorem isNumChar_not_ws (c : Nat) (h : isNumChar c = true) : isWS c = false := by
  rcases isNumChar_range c h with h1 | h1 | h1 | h1 | h1 | h1 <;>
    simp [isWS] <;> omega

/-- Every well-formed serialization is non-empty, starts with a
non-whitespace byte, and does not start with a list/object closer or a
comma. -/
theorem serialize_head (j : Json) (hw : wfJ j = true) :
    ∃ c t, serialize j = c :: t ∧ isWS c = false ∧ c ≠ 93 ∧ c ≠ 125 ∧ c ≠ 44 := by
  cases j with
  | null => exact ⟨110, _, rfl, by decide, by decide, by decide, by decide⟩
  | bool b =>
    cases b with
    | true => exact ⟨116, _, rfl, by decide, by decide, by decide, by decide⟩
    | false => exact ⟨102, _, rfl, by decide, by decide, by decide, by decide⟩
  | str r => exact ⟨34, _, rfl, by decide, by decide, by decide, by decide⟩
  | arr es => exact ⟨91, _, rfl, by decide, by decide, by decide, by decide⟩
  | obj fs => exact ⟨123, _, rfl, by decide, by decide, by decide, by decide⟩
  | num r =>
    simp only [wfJ, Bool.and_eq_true, List.all_eq_true] at hw
    cases r with
    | nil => simp at hw
    | cons c t =>
      have hc : isNumChar c = true := hw.2 c (by simp)
      refine ⟨c, t, rfl, isNumChar_not_ws c hc, ?_, ?_, ?_⟩ <;>
        (rcases isNumChar_range c hc with h1 | h1 | h1 | h1 | h1 | h1 <;> omega)

/-- Well-formed serializations are non-empty. -/
theorem serialize_ne_nil (j : Json) (hw : wfJ j = true) : 1 ≤ (serialize j).length := by
  obtain ⟨c, t, he, -⟩ := serialize_head j hw
  rw [he]
  simp

/-- Separators that may legally follow a serialized value. -/
def sepOK (l : B) : Prop :=
  l = [] ∨ (∃ u, l = 44 :: u) ∨ (∃ u, l = 125 :: u) ∨ (∃ u, l = 93 :: u)

theorem sepOK_not_num (l : B) (h : sepOK l) :
    l.takeWhile isNumChar = [] ∧ l.dropWhile isNumChar = l := by
  rcases h with h | ⟨u, h⟩ | ⟨u, h⟩ | ⟨u, h⟩ <;> subst h <;>
    simp [List.takeWhile_cons, List.dropWhile_cons, isNumChar]

/-- takeWhile/dropWhile on a number followed by a separator. -/
theorem takeWhile_num (raw rest : B) (hall : ∀ c ∈ raw, isNumChar c = true)
    (hrest : sepOK rest) :
    (raw ++ rest).takeWhile isNumChar = raw ∧
    (raw ++ rest).dropWhile isNumChar = rest := by
  induction raw with
  | nil =>
    simpa using sepOK_not_num rest hrest
  | cons c t ih =>
    have hc : isNumChar c = true := hall c (by simp)
    have iht := ih (fun d hd => hall d (by simp [hd]))
    simp only [List.cons_append, List.takeWhile_cons, List.dropWhile_cons, hc, if_pos]
    simp [iht.1, iht.2]

/-! ### Round trip: parsing a canonical serialization returns the document -/

theorem isPrefixOf_head_ne (a b : Nat) (as bs : B) (h : ¬ a = b) :
    (a :: as).isPrefixOf (b :: bs) = false := by
  apply Bool.eq_false_iff.mpr
  intro hc
  rw [List.isPrefixOf_iff_prefix] at hc
  exact h (List.cons_prefix_cons.mp hc).1

theorem isPrefixOf_self_append (l r : B) : l.isPrefixOf (l ++ r) = true := by
  rw [List.isPrefixOf_iff_prefix]
  exact List.prefix_append l r

theorem isNumChar_ne (c : Nat) (h : isNumChar c = true) :
    ¬ c = 34 ∧ ¬ c = 123 ∧ ¬ c = 91 ∧ ¬ c = 110 ∧ ¬ c = 116 ∧ ¬ c = 102 := by
  rcases isNumChar_range c h with h1 | h1 | h1 | h1 | h1 | h1 <;> omega

/-- The serialization of a non-empty element list starts with the head
element's serialization head byte. -/
theorem serArr_head (e : Json) (t : List Json) (c1 : Nat) (t1 : B)
    (h : serialize e = c1 :: t1) : ∃ z, serArr (e :: t) = c1 :: z := by
  cases t with
  | nil => exact ⟨t1, by rw [serArr, h]⟩
  | cons e2 t2 => exact ⟨t1 ++ 44 :: serArr (e2 :: t2), by rw [serArr, h]; rfl⟩

theorem notPrefix_null (c0 : Nat) (bs : B) (h : ¬ c0 = 110) :
    ¬ (strB "null").isPrefixOf (c0 :: bs) = true := by
  rw [show strB "null" = 110 :: strB "ull" from rfl,
    isPrefixOf_head_ne 110 c0 _ _ (fun he => h he.symm)]
  exact Bool.false_ne_true

theorem notPrefix_true (c0 : Nat) (bs : B) (h : ¬ c0 = 116) :
    ¬ (strB "true").isPrefixOf (c0 :: bs) = true := by
  rw [show strB "true" = 116 :: strB "rue" from rfl,
    isPrefixOf_head_ne 116 c0 _ _ (fun he => h he.symm)]
  exact Bool.false_ne_true

theorem notPrefix_false (c0 : Nat) (bs : B) (h : ¬ c0 = 102) :
    ¬ (strB "false").isPrefixOf (c0 :: bs) = true := by
  rw [show strB "false" = 102 :: strB "alse" from rfl,
    isPrefixOf_head_ne 102 c0 _ _ (fun he => h he.symm)]
  exact Bool.false_ne_true

mutual
theorem rtV (j : Json) (hw : wfJ j = true) (rest : B) (hr : sepOK rest) (f : Nat)
    (hf : costV j ≤ f) : parseVal f (serialize j ++ rest) = some (j, rest) := by
  cases f with
  | zero => exact absurd hf (by have := costV_pos j; omega)
  | succ f =>
    match j with
    | Json.null =>
      rw [show serialize Json.null ++ rest = 110 :: (117 :: 108 :: 108 :: rest) from rfl,
        parseVal, skipWS_cons_not _ _ (by decide)]
      dsimp only
      rw [if_neg (by decide), if_neg (by decide), if_neg (by decide),
        if_pos (show (strB "null").isPrefixOf (110 :: (117 :: 108 :: 108 :: rest)) = true
          from isPrefixOf_self_append (strB "null") rest)]
      rfl
    | Json.bool true =>
      rw [show serialize (Json.bool true) ++ rest = 116 :: (114 :: 117 :: 101 :: rest) from rfl,
        parseVal, skipWS_cons_not _ _ (by decide)]
      dsimp only
      rw [if_neg (by decide), if_neg (by decide), if_neg (by decide),
        if_neg (notPrefix_null 116 _ (by decide)),
        if_pos (show (strB "true").isPrefixOf (116 :: (114 :: 117 :: 101 :: rest)) = true
          from isPrefixOf_self_append (strB "true") rest)]
      rfl
    | Json.bool false =>
      rw [show serialize (Json.bool false) ++ rest =
          102 :: (97 :: 108 :: 115 :: 101 :: rest) from rfl,
        parseVal, skipWS_cons_not _ _ (by decide)]
      dsimp only
      rw [if_neg (by decide), if_neg (by decide), if_neg (by decide),
        if_neg (notPrefix_null 102 _ (by decide)),
        if_neg (notPrefix_true 102 _ (by decide)),
        if_pos (show (strB "false").isPrefixOf (102 :: (97 :: 108 :: 115 :: 101 :: rest)) = true
          from isPrefixOf_self_append (strB "false") rest)]
      rfl
    | Json.str raw =>
      have hesc : escOK raw = true := hw
      rw [show serialize (Json.str raw) ++ rest = 34 :: (raw ++ 34 :: rest) by
          simp [serialize],
        parseVal, skipWS_cons_not _ _ (by decide)]
      dsimp only
      rw [if_pos rfl, scanStr_append raw rest hesc, Option.map_some']
    | Json.num raw =>
      have hw2 : ¬ raw.isEmpty = true ∧ ∀ c ∈ raw, isNumChar c = true := by
        have h0 := hw
        rw [show wfJ (Json.num raw) = (!raw.isEmpty && raw.all isNumChar) from rfl] at h0
        simp only [Bool.and_eq_true, Bool.not_eq_true', List.all_eq_true] at h0
        exact ⟨by simp [h0.1], h0.2⟩
      obtain ⟨c0, t0, hraw⟩ : ∃ c0 t0, raw = c0 :: t0 := by
        cases raw with
        | nil => exact absurd rfl hw2.1
        | cons a b => exact ⟨a, b, rfl⟩
      subst hraw
      have hc0 : isNumChar c0 = true := hw2.2 c0 (by simp)
      obtain ⟨hn34, hn123, hn91, hn110, hn116, hn102⟩ := isNumChar_ne c0 hc0
      rw [show serialize (Json.num (c0 :: t0)) ++ rest = c0 :: (t0 ++ rest) from rfl,
        parseVal, skipWS_cons_not _ _ (isNumChar_not_ws c0 hc0)]
      dsimp only
      rw [if_neg hn34, if_neg hn123, if_neg hn91,
        if_neg (notPrefix_null c0 _ hn110),
        if_neg (notPrefix_true c0 _ hn116),
        if_neg (notPrefix_false c0 _ hn102),
        if_pos hc0, ← List.cons_append,
        (takeWhile_num (c0 :: t0) rest hw2.2 hr).1,
        (takeWhile_num (c0 :: t0) rest hw2.2 hr).2]
    | Json.arr [] =>
      rw [show serialize (Json.arr []) ++ rest = 91 :: (93 :: rest) from rfl,
        parseVal, skipWS_cons_not _ _ (by decide)]
      dsimp only
      rw [if_neg (by decide), if_neg (by decide), if_pos rfl,
        skipWS_cons_not _ _ (by decide)]
    | Json.arr (e :: t) =>
      have hwa : wfA (e :: t) = true := hw
      have hwe : wfJ e = true := by
        have h0 := hwa
        rw [show wfA (e :: t) = (wfJ e && wfA t) from rfl] at h0
        simp only [Bool.and_eq_true] at h0
        exact h0.1
      obtain ⟨c1, t1, hser1, hws1, h93, _, _⟩ := serialize_head e hwe
      obtain ⟨z, hz⟩ := serArr_head e t c1 t1 hser1
      have hfe : costE (e :: t) ≤ f := by
        rw [show costV (Json.arr (e :: t)) = 1 + costE (e :: t) from rfl] at hf
        omega
      have hre := rtE (e :: t) (by simp) hwa rest f hfe
      rw [show serialize (Json.arr (e :: t)) ++ rest =
          91 :: (serArr (e :: t) ++ 93 :: rest) by simp [serialize],
        parseVal, skipWS_cons_not _ _ (by decide)]
      dsimp only
      rw [if_neg (by decide), if_neg (by decide), if_pos rfl,
        show serArr (e :: t) ++ 93 :: rest = c1 :: (z ++ 93 :: rest) by rw [hz]; rfl,
        skipWS_cons_not _ _ hws1]
      rw [show serArr (e :: t) ++ 93 :: rest = c1 :: (z ++ 93 :: rest) by
        rw [hz]; rfl] at hre
      split
      · next r heq =>
        rw [List.cons.injEq] at heq
        exact absurd heq.1 h93
      · rw [hre, Option.map_some']
    | Json.obj [] =>
      rw [show serialize (Json.obj []) ++ rest = 123 :: (125 :: rest) from rfl,
        parseVal, skipWS_cons_not _ _ (by decide)]
      dsimp only
      rw [if_neg (by decide), if_pos rfl, skipWS_cons_not _ _ (by decide)]
    | Json.obj (fld :: t) =>
      have hwo : wfO (fld :: t) = true := hw
      have hff : costF (fld :: t) ≤ f := by
        rw [show costV (Json.obj (fld :: t)) = 1 + costF (fld :: t) from rfl] at hf
        omega
      have hrf := rtF (fld :: t) (by simp) hwo rest f hff
      obtain ⟨k, v⟩ := fld
      have hobjhead : ∃ z, serObj ((k, v) :: t) = 34 :: z := by
        cases t with
        | nil => exact ⟨k ++ 34 :: 58 :: serialize v, by rw [serObj]; rfl⟩
        | cons f2 t2 =>
          exact ⟨k ++ 34 :: 58 :: serialize v ++ 44 :: serObj (f2 :: t2), by rw [serObj]; rfl⟩
      obtain ⟨z, hz⟩ := hobjhead
      rw [show serialize (Json.obj ((k, v) :: t)) ++ rest =
          123 :: (serObj ((k, v) :: t) ++ 125 :: rest) by simp [serialize],
        parseVal, skipWS_cons_not _ _ (by decide)]
      dsimp only
      rw [if_neg (by decide), if_pos rfl,
        show serObj ((k, v) :: t) ++ 125 :: rest = 34 :: (z ++ 125 :: rest) by
          rw [hz]; rfl,
        skipWS_cons_not _ _ (by decide)]
      rw [show serObj ((k, v) :: t) ++ 125 :: rest = 34 :: (z ++ 125 :: rest) by
        rw [hz]; rfl] at hrf
      dsimp only
      rw [hrf, Option.map_some']

theorem rtE (es : List Json) (hne : es ≠ []) (hw : wfA es = true) (rest : B) (f : Nat)
    (hf : costE es ≤ f) : parseElems f (serArr es ++ 93 :: rest) = some (es, rest) := by
  cases f with
  | zero => exact absurd hf (by have := costE_pos es; omega)
  | succ f =>
    match es with
    | [] => exact absurd rfl hne
    | [e] =>
      have hwe : wfJ e = true := by
        have h0 := hw
        rw [show wfA [e] = (wfJ e && wfA []) from rfl] at h0
        simp only [Bool.and_eq_true] at h0
        exact h0.1
      have hfe : costV e ≤ f := by
        rw [show costE [e] = 1 + max (costV e) (costE []) from rfl] at hf
        omega
      rw [show serArr [e] ++ 93 :: rest = serialize e ++ 93 :: rest from rfl, parseElems,
        rtV e hwe (93 :: rest) (Or.inr (Or.inr (Or.inr ⟨rest, rfl⟩))) f hfe]
      dsimp only
      rw [skipWS_cons_not _ _ (by decide)]
    | e :: e2 :: t =>
      have hwet : wfJ e = true ∧ wfA (e2 :: t) = true := by
        have h0 := hw
        rw [show wfA (e :: e2 :: t) = (wfJ e && wfA (e2 :: t)) from rfl] at h0
        simp only [Bool.and_eq_true] at h0
        exact h0
      have hfe : costV e ≤ f ∧ costE (e2 :: t) ≤ f := by
        rw [show costE (e :: e2 :: t) = 1 + max (costV e) (costE (e2 :: t)) from rfl] at hf
        omega
      rw [show serArr (e :: e2 :: t) ++ 93 :: rest =
          serialize e ++ (44 :: (serArr (e2 :: t) ++ 93 :: rest)) by
          rw [serArr]; simp,
        parseElems,
        rtV e hwet.1 _ (Or.inr (Or.inl ⟨serArr (e2 :: t) ++ 93 :: rest, rfl⟩)) f hfe.1]
      dsimp only
      rw [skipWS_cons_not _ _ (by decide)]
      dsimp only
      rw [rtE (e2 :: t) (by simp) hwet.2 rest f hfe.2, Option.map_some']

theorem rtF (fs : List (B × Json)) (hne : fs ≠ []) (hw : wfO fs = true) (rest : B) (f : Nat)
    (hf : costF fs ≤ f) : parseFields f (serObj fs ++ 125 :: rest) = some (fs, rest) := by
  cases f with
  | zero => exact absurd hf (by have := costF_pos fs; omega)
  | succ f =>
    match fs with
    | [] => exact absurd rfl hne
    | [(k, v)] =>
      have hwkv : escOK k = true ∧ wfJ v = true := by
        have h0 := hw
        rw [show wfO [(k, v)] = (escOK k && wfJ v && wfO []) from rfl] at h0
        simp only [Bool.and_eq_true] at h0
        exact ⟨h0.1.1, h0.1.2⟩
      have hfv : costV v ≤ f := by
        rw [show costF [(k, v)] = 1 + max (costV v) (costF []) from rfl] at hf
        omega
      rw [show serObj [(k, v)] ++ 125 :: rest =
          34 :: (k ++ 34 :: (58 :: (serialize v ++ 125 :: rest))) by
          rw [serObj]; simp,
        parseFields, skipWS_cons_not _ _ (by decide)]
      dsimp only
      rw [scanStr_append _ _ hwkv.1]
      dsimp only
      rw [skipWS_cons_not _ _ (by decide)]
      dsimp only
      rw [rtV v hwkv.2 (125 :: rest) (Or.inr (Or.inr (Or.inl ⟨rest, rfl⟩))) f hfv]
      dsimp only
      rw [skipWS_cons_not _ _ (by decide)]
    | (k, v) :: f2 :: t2 =>
      have hwkv : escOK k = true ∧ wfJ v = true ∧ wfO (f2 :: t2) = true := by
        have h0 := hw
        rw [show wfO ((k, v) :: f2 :: t2) =
          (escOK k && wfJ v && wfO (f2 :: t2)) from rfl] at h0
        simp only [Bool.and_eq_true] at h0
        exact ⟨h0.1.1, h0.1.2, h0.2⟩
      have hfv : costV v ≤ f ∧ costF (f2 :: t2) ≤ f := by
        rw [show costF ((k, v) :: f2 :: t2) =
          1 + max (costV v) (costF (f2 :: t2)) from rfl] at hf
        omega
      rw [show serObj ((k, v) :: f2 :: t2) ++ 125 :: rest =
          34 :: (k ++ 34 :: (58 :: (serialize v ++
            (44 :: (serObj (f2 :: t2) ++ 125 :: rest))))) by
          rw [serObj]; simp,
        parseFields, skipWS_cons_not _ _ (by decide)]
      dsimp only
      rw [scanStr_append _ _ hwkv.1]
      dsimp only
      rw [skipWS_cons_not _ _ (by decide)]
      dsimp only
      rw [rtV v hwkv.2.1 _
        (Or.inr (Or.inl ⟨serObj (f2 :: t2) ++ 125 :: rest, rfl⟩)) f hfv.1]
      dsimp only
      rw [skipWS_cons_not _ _ (by decide)]
      dsimp only
      rw [rtF (f2 :: t2) (by simp) hwkv.2.2 rest f hfv.2, Option.map_some']
end

mutual
theorem costLeV (j : Json) (hw : wfJ j = true) : costV j ≤ (serialize j).length := by
  match j with
  | Json.null => decide
  | Json.bool true => decide
  | Json.bool false => decide
  | Json.str r =>
    rw [show costV (Json.str r) = 1 from rfl, show serialize (Json.str r) = 34 :: r ++ [34] from rfl]
    simp
  | Json.num r =>
    have : ¬ r.isEmpty = true := by
      have h0 := hw
      rw [show wfJ (Json.num r) = (!r.isEmpty && r.all isNumChar) from rfl] at h0
      simp only [Bool.and_eq_true, Bool.not_eq_true'] at h0
      simp [h0.1]
    rw [show costV (Json.num r) = 1 from rfl, show serialize (Json.num r) = r from rfl]
    cases r with
    | nil => simp at this
    | cons a b => simp
  | Json.arr [] => decide
  | Json.arr (e :: t) =>
    have h := costLeE (e :: t) hw
    rw [show costV (Json.arr (e :: t)) = 1 + costE (e :: t) from rfl,
      show serialize (Json.arr (e :: t)) = 91 :: serArr (e :: t) ++ [93] from rfl]
    simp only [List.length_cons, List.length_append, List.length_cons, List.length_nil]
    omega
  | Json.obj [] => decide
  | Json.obj (fld :: t) =>
    have h := costLeF (fld :: t) hw
    rw [show costV (Json.obj (fld :: t)) = 1 + costF (fld :: t) from rfl,
      show serialize (Json.obj (fld :: t)) = 123 :: serObj (fld :: t) ++ [125] from rfl]
    simp only [List.length_cons, List.length_append, List.length_nil]
    omega

theorem costLeE (es : List Json) (hw : wfA es = true) : costE es ≤ (serArr es).length + 1 := by
  match es with
  | [] => decide
  | [e] =>
    have hwe : wfJ e = true := by
      have h0 := hw
      rw [show wfA [e] = (wfJ e && wfA []) from rfl] at h0
      simp only [Bool.and_eq_true] at h0
      exact h0.1
    have h1 := costLeV e hwe
    have h2 := serialize_ne_nil e hwe
    rw [show costE [e] = 1 + max (costV e) (costE []) from rfl,
      show serArr [e] = serialize e from rfl, show costE ([] : List Json) = 1 from rfl]
    omega
  | e :: e2 :: t =>
    have hwet : wfJ e = true ∧ wfA (e2 :: t) = true := by
      have h0 := hw
      rw [show wfA (e :: e2 :: t) = (wfJ e && wfA (e2 :: t)) from rfl] at h0
      simp only [Bool.and_eq_true] at h0
      exact h0
    have h1 := costLeV e hwet.1
    have h2 := serialize_ne_nil e hwet.1
    have h3 := costLeE (e2 :: t) hwet.2
    rw [show costE (e :: e2 :: t) = 1 + max (costV e) (costE (e2 :: t)) from rfl,
      show serArr (e :: e2 :: t) = serialize e ++ 44 :: serArr (e2 :: t) from rfl]
    simp only [List.length_append, List.length_cons]
    omega

theorem costLeF (fs : List (B × Json)) (hw : wfO fs = true) :
    costF fs ≤ (serObj fs).length + 1 := by
  match fs with
  | [] => decide
  | [(k, v)] =>
    have hwv : wfJ v = true := by
      have h0 := hw
      rw [show wfO [(k, v)] = (escOK k && wfJ v && wfO []) from rfl] at h0
      simp only [Bool.and_eq_true] at h0
      exact h0.1.2
    have h1 := costLeV v hwv
    have h2 := serialize_ne_nil v hwv
    rw [show costF [(k, v)] = 1 + max (costV v) (costF []) from rfl,
      show serObj [(k, v)] = 34 :: k ++ 34 :: 58 :: serialize v from rfl,
      show costF ([] : List (B × Json)) = 1 from rfl]
    simp only [List.length_cons, List.length_append]
    omega
  | (k, v) :: f2 :: t2 =>
    have hwv : wfJ v = true ∧ wfO (f2 :: t2) = true := by
      have h0 := hw
      rw [show wfO ((k, v) :: f2 :: t2) = (escOK k && wfJ v && wfO (f2 :: t2)) from rfl] at h0
      simp only [Bool.and_eq_true] at h0
      exact ⟨h0.1.2, h0.2⟩
    have h1 := costLeV v hwv.1
    have h2 := serialize_ne_nil v hwv.1
    have h3 := costLeF (f2 :: t2) hwv.2
    rw [show costF ((k, v) :: f2 :: t2) = 1 + max (costV v) (costF (f2 :: t2)) from rfl,
      show serObj ((k, v) :: f2 :: t2) =
        34 :: k ++ 34 :: 58 :: serialize v ++ 44 :: serObj (f2 :: t2) from rfl]
    simp only [List.length_cons, List.length_append]
    omega
end

/-- Parsing the canonical serialization of a well-formed document is the
identity. -/
theorem parse_serialize (j : Json) (hw : wfJ j = true) : parse (serialize j) = some j := by
  unfold parse
  have h1 : parseVal ((serialize j).length + 1) (serialize j ++ []) = some (j, []) :=
    rtV j hw [] (Or.inl rfl) _ (le_trans (costLeV j hw) (by omega))
  rw [List.append_nil] at h1
  rw [h1]
  dsimp only
  rw [if_pos (show skipWS [] = [] from rfl)]

/-! ### C5 -/

theorem wsSplit_cons_not (c : Nat) (t : B) (h : isWS c = false) :
    wsSplit (c :: t) = ([], c :: t) := by
  simp [wsSplit, h]

/-- Second definition for the refinement claim C5, following the spec's
words: the fast splice should be byte-identical to "parsing the original
document, prepending the prompt_cache_key field, and re-serializing it". -/
def specInjectViaTree (bs key : B) : Option B :=
  match parse bs with
  | some (Json.obj fs) => some (serialize (Json.obj ((pckName, Json.str key) :: fs)))
  | _ => none

/-- **C5 counterexample**: on a needs-only-cache-key body that is not in
canonical serialized form (an extra space before the closing brace), the
fast splice output differs from parse-prepend-reserialize: the splice
preserves the original whitespace, the tree path does not. -/
theorem c5_fast_splice_counterexample :
    hasJSONKey (strB "\x7b\"a\":1 \x7d") kInstrKey = false ∧
    hasJSONKey (strB "\x7b\"a\":1 \x7d") kPromptCacheKey = false ∧
    hasJSONKey (strB "\x7b\"a\":1 \x7d") kPrevRespIDKey = false ∧
    injectPromptCacheKeyFast (strB "\x7b\"a\":1 \x7d") (strB "K") ≠
      specInjectViaTree (strB "\x7b\"a\":1 \x7d") (strB "K") := by
  refine ⟨by decide, by decide, by decide, ?_⟩
  decide

/-- **C5 (amended)**: when the body is the canonical serialization of a
well-formed JSON object, the fast splice output is byte-identical to
parsing, prepending the `prompt_cache_key` field, and re-serializing; and
whenever the body does not start (after optional whitespace) with an
object-opening brace, the fast path reports not-applicable. -/
theorem c5_fast_splice_refinement (fs : List (B × Json)) (key : B)
    (hw : wfJ (Json.obj fs) = true) :
    injectPromptCacheKeyFast (serialize (Json.obj fs)) key =
      some (serialize (Json.obj ((pckName, Json.str key) :: fs))) ∧
    specInjectViaTree (serialize (Json.obj fs)) key =
      some (serialize (Json.obj ((pckName, Json.str key) :: fs))) ∧
    (∀ bs, (∀ t, skipWS bs ≠ 123 :: t) → injectPromptCacheKeyFast bs key = none) := by
  have hpat : strB "\"prompt_cache_key\":\"" = 34 :: pckName ++ [34, 58, 34] := by decide
  refine ⟨?_, ?_, ?_⟩
  · cases fs with
    | nil =>
      have h1 : injectPromptCacheKeyFast (serialize (Json.obj [])) key =
          some (([] ++ [123] ++ strB "\"prompt_cache_key\":\"" ++ key ++ [34]) ++ 125 :: []) :=
        rfl
      rw [h1, hpat,
        show serialize (Json.obj [(pckName, Json.str key)]) =
          123 :: (34 :: pckName ++ 34 :: 58 :: (34 :: key ++ [34])) ++ [125] from rfl]
      simp
    | cons f1 t =>
      obtain ⟨k, v⟩ := f1
      obtain ⟨z, hz⟩ : ∃ z, serObj ((k, v) :: t) = 34 :: z := by
        cases t with
        | nil => exact ⟨k ++ 34 :: 58 :: serialize v, by rw [serObj]; rfl⟩
        | cons f2 t2 =>
          exact ⟨k ++ 34 :: 58 :: serialize v ++ 44 :: serObj (f2 :: t2), by rw [serObj]; rfl⟩
      rw [show serialize (Json.obj ((k, v) :: t)) =
          123 :: (serObj ((k, v) :: t) ++ [125]) from rfl]
      simp only [injectPromptCacheKeyFast]
      rw [wsSplit_cons_not 123 _ (by decide)]
      dsimp only
      rw [show serObj ((k, v) :: t) ++ [125] = 34 :: (z ++ [125]) by rw [hz]; rfl,
        wsSplit_cons_not 34 _ (by decide)]
      dsimp only
      rw [show serialize (Json.obj ((pckName, Json.str key) :: (k, v) :: t)) =
          123 :: (34 :: pckName ++ 34 :: 58 :: (34 :: key ++ [34]) ++
            44 :: serObj ((k, v) :: t)) ++ [125] from rfl,
        hz, hpat]
      simp
  · unfold specInjectViaTree
    rw [parse_serialize (Json.obj fs) hw]
  · intro bs h
    simp only [injectPromptCacheKeyFast]
    rw [wsSplit_snd]
    split
    · next t0 heq => exact absurd heq (h t0)
    · rfl

/-- Witness for C5 (amended) at a concrete one-field object. -/
theorem c5_fast_splice_refinement_witness :
    injectPromptCacheKeyFast (serialize (Json.obj [(strB "a", Json.num (strB "1"))]))
      (strB "K") =
      some (serialize (Json.obj
        [(pckName, Json.str (strB "K")), (strB "a", Json.num (strB "1"))])) ∧
    specInjectViaTree (serialize (Json.obj [(strB "a", Json.num (strB "1"))]))
      (strB "K") =
      some (serialize (Json.obj
        [(pckName, Json.str (strB "K")), (strB "a", Json.num (strB "1"))])) ∧
    (∀ bs, (∀ t, skipWS bs ≠ 123 :: t) →
      injectPromptCacheKeyFast bs (strB "K") = none) :=
  c5_fast_splice_refinement [(strB "a", Json.num (strB "1"))] (strB "K") (by decide)

/-! ### Scanner characterization: occurrences of a key pattern -/

/-- An occurrence the scanner accepts: the key pattern at some position,
followed (after optional whitespace) by a colon. -/
def OccKey (s key : B) : Prop :=
  ∃ i, key.isPrefixOf (s.drop i) = true ∧ colonAfterWS (s.drop (i + key.length)) = true

theorem indexOfSub_none (s pat : B) (h : indexOfSub s pat = none) :
    ∀ i, pat.isPrefixOf (s.drop i) = false := by
  induction s with
  | nil =>
    intro i
    rw [indexOfSub] at h
    split at h
    · simp at h
    · cases hp : pat.isPrefixOf ([].drop i)
      · rfl
      · rw [List.drop_nil] at hp
        next hnp => exact absurd hp hnp
  | cons c t ih =>
    rw [indexOfSub] at h
    split at h
    · simp at h
    · next hnp =>
      intro i
      cases i with
      | zero =>
        rw [List.drop_zero]
        cases hp : pat.isPrefixOf (c :: t)
        · rfl
        · exact absurd hp hnp
      | succ i =>
        rw [show (c :: t).drop (i + 1) = t.drop i from rfl]
        cases hsub : indexOfSub t pat with
        | none => exact ih hsub i
        | some idx => rw [hsub] at h; simp at h

theorem indexOfSub_some (s pat : B) (idx : Nat) (h : indexOfSub s pat = some idx) :
    pat.isPrefixOf (s.drop idx) = true ∧ ∀ j < idx, pat.isPrefixOf (s.drop j) = false := by
  induction s generalizing idx with
  | nil =>
    rw [indexOfSub] at h
    split at h
    · next hp =>
      simp only [Option.some_inj] at h
      subst h
      exact ⟨by simpa using hp, by omega⟩
    · simp at h
  | cons c t ih =>
    rw [indexOfSub] at h
    split at h
    · next hp =>
      simp only [Option.some_inj] at h
      subst h
      exact ⟨by simpa using hp, by omega⟩
    · next hnp =>
      cases hsub : indexOfSub t pat with
      | none => rw [hsub] at h; simp at h
      | some idx2 =>
        rw [hsub] at h
        simp only [Option.map_some', Option.some_inj] at h
        subst h
        obtain ⟨h1, h2⟩ := ih idx2 hsub
        refine ⟨h1, ?_⟩
        intro j hj
        cases j with
        | zero =>
          rw [List.drop_zero]
          cases hp : pat.isPrefixOf (c :: t)
          · rfl
          · exact absurd hp hnp
        | succ j =>
          rw [show (c :: t).drop (j + 1) = t.drop j from rfl]
          exact h2 j (by omega)

theorem hasJSONKeyAux_sound (key : B) :
    ∀ f s, hasJSONKeyAux f s key = true → OccKey s key := by
  intro f
  induction f with
  | zero => intro s h; simp [hasJSONKeyAux] at h
  | succ f ih =>
    intro s h
    rw [hasJSONKeyAux] at h
    cases hsub : indexOfSub s key with
    | none => rw [hsub] at h; dsimp only at h; exact absurd h (by simp)
    | some idx =>
      rw [hsub] at h
      dsimp only at h
      split at h
      · next hcolon => exact ⟨idx, (indexOfSub_some s key idx hsub).1, hcolon⟩
      · obtain ⟨i, hp, hc⟩ := ih (s.drop (idx + 1)) h
        refine ⟨idx + 1 + i, ?_, ?_⟩
        · rw [show s.drop (idx + 1 + i) = (s.drop (idx + 1)).drop i by
            rw [List.drop_drop]]
          exact hp
        · rw [show s.drop (idx + 1 + i + key.length) =
            (s.drop (idx + 1)).drop (i + key.length) by
            rw [List.drop_drop]; congr 1; omega]
          exact hc

theorem isPrefixOf_nil_ne (key : B) (h : key ≠ []) : key.isPrefixOf ([] : B) = false := by
  cases key with
  | nil => exact absurd rfl h
  | cons c t => rfl

theorem hasJSONKeyAux_complete (key : B) (hk : key ≠ []) :
    ∀ f s, s.length < f → OccKey s key → hasJSONKeyAux f s key = true := by
  intro f
  induction f with
  | zero => intro s hlt; omega
  | succ f ih =>
    intro s hlt hocc
    obtain ⟨i, hp, hc⟩ := hocc
    have hi : i < s.length := by
      by_contra hge
      rw [List.drop_eq_nil_of_le (by omega)] at hp
      rw [isPrefixOf_nil_ne key hk] at hp
      exact absurd hp (by simp)
    rw [hasJSONKeyAux]
    cases hsub : indexOfSub s key with
    | none => exact absurd hp (by rw [indexOfSub_none s key hsub i]; simp)
    | some idx =>
      obtain ⟨hp2, hmin⟩ := indexOfSub_some s key idx hsub
      have hidx : idx ≤ i := by
        by_contra hgt
        rw [hmin i (by omega)] at hp
        exact absurd hp (by simp)
      dsimp only
      split
      · rfl
      · next hnc =>
        have hne : idx ≠ i := by
          intro he
          subst he
          exact hnc hc
        refine ih (s.drop (idx + 1)) (by rw [List.length_drop]; omega) ?_
        refine ⟨i - (idx + 1), ?_, ?_⟩
        · rw [List.drop_drop, show idx + 1 + (i - (idx + 1)) = i by omega]
          exact hp
        · rw [List.drop_drop, show idx + 1 + (i - (idx + 1) + key.length) =
            i + key.length by omega]
          exact hc

/-- Scanner completeness: any accepted occurrence makes the scan succeed. -/
theorem hasJSONKey_of_occKey (bs key : B) (hk : key ≠ []) (h : OccKey bs key) :
    hasJSONKey bs key = true :=
  hasJSONKeyAux_complete key hk (bs.length + 1) bs (by omega) h

/-- Scanner soundness: a successful scan exhibits an occurrence. -/
theorem occKey_of_hasJSONKey (bs key : B) (h : hasJSONKey bs key = true) :
    OccKey bs key :=
  hasJSONKeyAux_sound key (bs.length + 1) bs h

theorem jLookup_mem (fs : List (B × Json)) (k : B) (v : Json)
    (h : jLookup fs k = some v) : (k, v) ∈ fs := by
  induction fs with
  | nil => simp [jLookup] at h
  | cons p t ih =>
    obtain ⟨k0, v0⟩ := p
    rw [jLookup] at h
    split at h
    · next he =>
      simp only [Option.some_inj] at h
      subst he h
      simp
    · exact List.mem_cons_of_mem _ (ih h)

/-! ### C3 -/

/-- `rewriteInstr` on an object yields an object, and every top-level key
other than `instructions` and `input` keeps its looked-up value. -/
theorem rewriteInstr_obj_lookup (fs : List (B × Json)) (k : B)
    (h1 : k ≠ instrName) (h2 : k ≠ inputName) :
    ∃ fs2, rewriteInstr (Json.obj fs) = Json.obj fs2 ∧ jLookup fs2 k = jLookup fs k := by
  cases hi : jLookup fs instrName with
  | none =>
    exact ⟨fs, rewriteInstr_skip fs (fun S h => by rw [hi] at h; simp at h), rfl⟩
  | some v =>
    cases v with
    | str S =>
      refine ⟨setKey (eraseKey fs instrName) inputName
        (Json.arr (migratedInput S (eraseKey fs instrName))), rewriteInstr_eq fs S hi, ?_⟩
      rw [jLookup_setKey_ne _ inputName k _ h2, jLookup_eraseKey_ne _ instrName k h1]
    | _ =>
      exact ⟨fs, rewriteInstr_skip fs (fun S h => by rw [hi] at h; simp at h), rfl⟩

/-- Concrete request used by the C3 counterexample: the body's only
`prompt_cache_key` occurrence is nested inside another object, so the byte
scanner reports it present while the top level lacks it. -/
def rC3 : Request :=
  { method := strB "POST", path := strB "/v1/responses",
    body := some (strB "\x7b\"instructions\":\"s\",\"m\":\x7b\"prompt_cache_key\":1\x7d\x7d"),
    contentLength := 0, clHdr := none, teHdr := none, ceHdr := none,
    transferEncoding := [], authorization := strB "x", xApiKey := [],
    apiKey := [], userAgent := [], remoteAddr := [] }

/-- Top-level fields of the C3 counterexample body. -/
def fsC3in : List (B × Json) :=
  [(strB "instructions", Json.str (strB "s")),
   (strB "m", Json.obj [(strB "prompt_cache_key", Json.num (strB "1"))])]

/-- Top-level fields of the C3 counterexample output. -/
def fsC3out : List (B × Json) :=
  [(strB "m", Json.obj [(strB "prompt_cache_key", Json.num (strB "1"))]),
   (strB "input", Json.arr [devMsg (strB "s")])]

/-- **C3 counterexample**: a body whose only `prompt_cache_key` occurrence
is nested makes the byte scanner report the key present, so the tree path
skips the ensure-step: the top-level `prompt_cache_key` is absent in the
input, the tree-rewrite path runs (instructions are migrated), yet the
output's top-level `prompt_cache_key` is still absent — it is NOT set to
the derived key, contradicting the claim's second half. -/
theorem c3_cache_key_counterexample :
    hasJSONKey (strB "\x7b\"instructions\":\"s\",\"m\":\x7b\"prompt_cache_key\":1\x7d\x7d")
      kPromptCacheKey = true ∧
    parse (strB "\x7b\"instructions\":\"s\",\"m\":\x7b\"prompt_cache_key\":1\x7d\x7d") =
      some (Json.obj fsC3in) ∧
    jLookup fsC3in pckName = none ∧
    (director gzNone rC3).body =
      some (strB "\x7b\"m\":\x7b\"prompt_cache_key\":1\x7d,\"input\":[\x7b\"role\":\"developer\",\"content\":\"s\"\x7d]\x7d") ∧
    parse (strB "\x7b\"m\":\x7b\"prompt_cache_key\":1\x7d,\"input\":[\x7b\"role\":\"developer\",\"content\":\"s\"\x7d]\x7d") =
      some (Json.obj fsC3out) ∧
    jLookup fsC3out pckName = none := by
  refine ⟨by decide, rfl, rfl, ?_, rfl, rfl⟩
  rfl

/-- **C3 (amended)**: the pipeline decides "already contains
`prompt_cache_key`" by the byte scanner, not by the parsed document.  (A)
Whenever the scanner reports the key present, every path preserves the
top-level `prompt_cache_key` value: the body is either forwarded unchanged
or re-serialized from a tree with the same looked-up value.  (B) Whenever
the scanner reports it absent and the parsed top level lacks it or holds
null, the tree path (entered because an instruction rewrite is needed or
because the fast splice is not applicable) sets it to the derived key. -/
theorem c3_cache_key_preserve_or_set (gz : B → Option B) (r : Request) (bs : B)
    (hm : r.method = strB "POST") (hpath : isResponsesPath r.path = true)
    (hb : r.body = some bs) (hce : r.ceHdr ≠ some gzipB) :
    (∀ fs v, parse bs = some (Json.obj fs) →
      hasJSONKey bs kPromptCacheKey = true →
      jLookup fs pckName = some v →
      (director gz r).body = some bs ∨
      ∃ fs2, (director gz r).body = some (serialize (Json.obj fs2)) ∧
        jLookup fs2 pckName = some v) ∧
    (∀ fs, parse bs = some (Json.obj fs) →
      hasJSONKey bs kPromptCacheKey = false →
      (jLookup fs pckName = none ∨ jLookup fs pckName = some Json.null) →
      ((hasJSONKey bs kInstrKey && !hasJSONKey bs kPrevRespIDKey) = true ∨
        injectPromptCacheKeyFast bs (derivePromptCacheKey r) = none) →
      ∃ fs2, (director gz r).body = some (serialize (Json.obj fs2)) ∧
        jLookup fs2 pckName = some (Json.str (derivePromptCacheKey r))) := by
  have hdir : director gz r = tweakBodySonic gz r := by
    unfold director
    rw [hm, hpath]
    simp
  rw [hdir]
  unfold tweakBodySonic
  rw [tweak_nonGzip gz encodeModel r bs hb hce]
  constructor
  · intro fs v hparse hsc hlk
    cases hsr : (hasJSONKey bs kInstrKey && !hasJSONKey bs kPrevRespIDKey) with
    | false =>
      rw [tweakCore_pass encodeModel r bs hsr hsc]
      exact Or.inl rfl
    | true =>
      rw [tweakCore_sr encodeModel r bs hsr, hsc]
      obtain ⟨fs2, heq, hlk2⟩ := rewriteInstr_obj_lookup fs pckName (by decide) (by decide)
      have hmut : astMutate (derivePromptCacheKey r) true true (Json.obj fs) = Json.obj fs2 :=
        heq
      refine Or.inr ⟨fs2, ?_, hlk2.trans hlk⟩
      rw [astPath_enc_some encodeModel r bs true true (Json.obj fs)
        (serialize (Json.obj fs2)) hparse (by rw [hmut]; rfl)]
      rfl
  · intro fs hparse hsc hnl hdisj
    have hens : ensureFields fs (derivePromptCacheKey r) =
        setKey fs pckName (Json.str (derivePromptCacheKey r)) := by
      unfold ensureFields
      rcases hnl with h | h
      · rw [h]
      · rw [h]
    cases hsr : (hasJSONKey bs kInstrKey && !hasJSONKey bs kPrevRespIDKey) with
    | true =>
      rw [tweakCore_sr encodeModel r bs hsr, hsc]
      obtain ⟨fs2, heq, hlk2⟩ := rewriteInstr_obj_lookup
        (ensureFields fs (derivePromptCacheKey r)) pckName (by decide) (by decide)
      have hmut : astMutate (derivePromptCacheKey r) true false (Json.obj fs) =
          Json.obj fs2 := heq
      refine ⟨fs2, ?_, ?_⟩
      · rw [astPath_enc_some encodeModel r bs true false (Json.obj fs)
          (serialize (Json.obj fs2)) hparse (by rw [hmut]; rfl)]
        rfl
      · rw [hlk2, hens, jLookup_setKey_self]
    | false =>
      have hinj : injectPromptCacheKeyFast bs (derivePromptCacheKey r) = none := by
        rcases hdisj with h | h
        · rw [hsr] at h; exact absurd h (by simp)
        · exact h
      rw [tweakCore_fastfail encodeModel r bs hsr hsc hinj]
      have hmut : astMutate (derivePromptCacheKey r) false false (Json.obj fs) =
          Json.obj (ensureFields fs (derivePromptCacheKey r)) := rfl
      refine ⟨ensureFields fs (derivePromptCacheKey r), ?_, ?_⟩
      · rw [astPath_enc_some encodeModel r bs false false (Json.obj fs)
          (serialize (Json.obj (ensureFields fs (derivePromptCacheKey r)))) hparse
          (by rw [hmut]; rfl)]
        rfl
      · rw [hens, jLookup_setKey_self]

/-- Concrete request used by the C3 witness: an instruction rewrite is
needed and `prompt_cache_key` is absent. -/
def rC3w : Request :=
  { method := strB "POST", path := strB "/v1/responses",
    body := some (strB "\x7b\"instructions\":\"s\"\x7d"),
    contentLength := 0, clHdr := none, teHdr := none, ceHdr := none,
    transferEncoding := [], authorization := strB "x", xApiKey := [],
    apiKey := [], userAgent := [], remoteAddr := [] }

/-- Witness for C3 (amended), part B at a concrete body: the tree path
emits a tree whose `prompt_cache_key` is the derived key. -/
theorem c3_cache_key_preserve_or_set_witness :
    ∃ fs2, (director gzNone rC3w).body = some (serialize (Json.obj fs2)) ∧
      jLookup fs2 pckName = some (Json.str (derivePromptCacheKey rC3w)) :=
  (c3_cache_key_preserve_or_set gzNone rC3w (strB "\x7b\"instructions\":\"s\"\x7d") rfl
    (by decide) rfl (by decide)).2
    [(strB "instructions", Json.str (strB "s"))] rfl (by decide) (Or.inl rfl)
    (Or.inl (by decide))

/-! ### C8: scanner positivity on serialized objects -/

theorem drop_len_add (p c : B) (n : Nat) : (p ++ c).drop (p.length + n) = c.drop n := by
  induction p with
  | nil => rw [List.length_nil, Nat.zero_add, List.nil_append]
  | cons a t ih =>
    have h1 : (a :: t).length + n = (t.length + n) + 1 := by
      rw [List.length_cons]; omega
    rw [List.cons_append, h1, List.drop_succ_cons, ih]

/-- An accepted occurrence in a suffix is an accepted occurrence in the
whole. -/
theorem occ_append_left (p c key : B) (h : OccKey c key) : OccKey (p ++ c) key := by
  obtain ⟨i, hp, hc⟩ := h
  refine ⟨p.length + i, ?_, ?_⟩
  · rw [drop_len_add]
    exact hp
  · rw [show p.length + i + key.length = p.length + (i + key.length) by omega, drop_len_add]
    exact hc

theorem colonAfterWS_colon (r : B) : colonAfterWS (58 :: r) = true := by
  unfold colonAfterWS
  rw [skipWS_cons_not 58 r (by decide)]

/-- A quoted key followed directly by a colon anywhere in the bytes is an
accepted scanner occurrence of the quoted-key pattern. -/
theorem occ_of_decomp (s l k r : B) (h : s = l ++ 34 :: (k ++ 34 :: 58 :: r)) :
    OccKey s (34 :: k ++ [34]) := by
  subst h
  apply occ_append_left
  refine ⟨0, ?_, ?_⟩
  · rw [List.drop_zero,
      show 34 :: (k ++ 34 :: 58 :: r) = (34 :: k ++ [34]) ++ 58 :: r by simp]
    exact isPrefixOf_self_append _ _
  · rw [Nat.zero_add,
      show 34 :: (k ++ 34 :: 58 :: r) = (34 :: k ++ [34]) ++ 58 :: r by simp,
      List.drop_left]
    exact colonAfterWS_colon r

/-- Every member field of a serialized object appears as quoted key, colon,
then its value. -/
theorem serObj_field_decomp (fs : List (B × Json)) (k : B) (v : Json)
    (hm : (k, v) ∈ fs) :
    ∃ l r, serObj fs = l ++ 34 :: (k ++ 34 :: 58 :: r) := by
  induction fs with
  | nil => exact absurd hm (by simp)
  | cons p t ih =>
    obtain ⟨k0, v0⟩ := p
    rcases List.mem_cons.mp hm with he | ht
    · obtain ⟨hk, hv⟩ := Prod.mk.injEq .. ▸ he
      subst hk
      cases t with
      | nil => exact ⟨[], serialize v0, by rw [serObj]; simp⟩
      | cons f2 t2 =>
        exact ⟨[], serialize v0 ++ 44 :: serObj (f2 :: t2), by rw [serObj]; simp⟩
    · obtain ⟨l, r, hlr⟩ := ih ht
      cases t with
      | nil => exact absurd ht (by simp)
      | cons f2 t2 =>
        refine ⟨34 :: k0 ++ 34 :: 58 :: serialize v0 ++ 44 :: l, r, ?_⟩
        rw [serObj, hlr]
        simp

/-- A top-level field of a serialized object is found by the byte scanner's
quoted-key-then-colon test. -/
theorem occ_serialize_field (fs : List (B × Json)) (k : B) (v : Json)
    (h : jLookup fs k = some v) : OccKey (serialize (Json.obj fs)) (34 :: k ++ [34]) := by
  obtain ⟨l, r, hlr⟩ := serObj_field_decomp fs k v (jLookup_mem fs k v h)
  refine occ_of_decomp _ (123 :: l) k (r ++ [125]) ?_
  rw [serialize, hlr]
  simp

/-- The scanner reports `prompt_cache_key` present on the serialization of
any object holding the field at top level. -/
theorem hasPrompt_of_serialize (fs : List (B × Json)) (v : Json)
    (h : jLookup fs pckName = some v) :
    hasJSONKey (serialize (Json.obj fs)) kPromptCacheKey = true := by
  have hkey : kPromptCacheKey = 34 :: pckName ++ [34] := by decide
  rw [hkey]
  exact hasJSONKey_of_occKey _ _ (by decide) (occ_serialize_field fs pckName v h)

/-! ### C8: well-formedness is preserved by the tree mutation -/

theorem isHexCh_escape (c : Nat) (h : isHexCh c) : ¬ c = 34 ∧ ¬ c = 92 := by
  rcases h with ⟨h1, h2⟩ | ⟨h1, h2⟩ <;> omega

theorem escOK_no_special (l : B) (h : ∀ c ∈ l, ¬ c = 34 ∧ ¬ c = 92) : escOK l = true := by
  induction l with
  | nil => rfl
  | cons c t ih =>
    obtain ⟨h34, h92⟩ := h c (by simp)
    rw [escOK_cons, if_neg h34, if_neg h92]
    exact ih (fun x hx => h x (by simp [hx]))

/-- The derived cache key is always a well-escaped JSON string body. -/
theorem escOK_derive (r : Request) : escOK (derivePromptCacheKey r) = true :=
  escOK_no_special _ (fun c hc => isHexCh_escape c (derive_hex r c hc))

theorem wfO_cons_eq (k : B) (v : Json) (t : List (B × Json)) :
    wfO ((k, v) :: t) = (escOK k && wfJ v && wfO t) := rfl

theorem wfO_lookup (fs : List (B × Json)) (k : B) (v : Json)
    (hw : wfO fs = true) (h : jLookup fs k = some v) : wfJ v = true := by
  induction fs with
  | nil => simp [jLookup] at h
  | cons p t ih =>
    obtain ⟨k0, v0⟩ := p
    rw [wfO_cons_eq] at hw
    simp only [Bool.and_eq_true] at hw
    rw [jLookup] at h
    split at h
    · simp only [Option.some_inj] at h
      exact h ▸ hw.1.2
    · exact ih hw.2 h

theorem wfO_setKey (fs : List (B × Json)) (k : B) (v : Json)
    (hw : wfO fs = true) (hk : escOK k = true) (hv : wfJ v = true) :
    wfO (setKey fs k v) = true := by
  induction fs with
  | nil =>
    rw [setKey, wfO_cons_eq, hk, hv]
    rfl
  | cons p t ih =>
    obtain ⟨k0, v0⟩ := p
    rw [wfO_cons_eq] at hw
    simp only [Bool.and_eq_true] at hw
    rw [setKey]
    split
    · rw [wfO_cons_eq, hk, hv]
      simp [hw.2]
    · rw [wfO_cons_eq, hw.1.1, hw.1.2, ih hw.2]
      rfl

theorem wfO_eraseKey (fs : List (B × Json)) (k : B) (hw : wfO fs = true) :
    wfO (eraseKey fs k) = true := by
  induction fs with
  | nil => rfl
  | cons p t ih =>
    obtain ⟨k0, v0⟩ := p
    rw [wfO_cons_eq] at hw
    simp only [Bool.and_eq_true] at hw
    rw [eraseKey]
    split
    · exact hw.2
    · rw [wfO_cons_eq, hw.1.1, hw.1.2, ih hw.2]
      rfl

theorem wfO_ensureFields (fs : List (B × Json)) (key : B)
    (hw : wfO fs = true) (hk : escOK key = true) :
    wfO (ensureFields fs key) = true := by
  unfold ensureFields
  cases hpk : jLookup fs pckName with
  | none => exact wfO_setKey fs pckName _ hw (by decide) hk
  | some v =>
    cases v with
    | null => exact wfO_setKey fs pckName _ hw (by decide) hk
    | _ => exact hw

theorem wfJ_devMsg (S : B) (h : escOK S = true) : wfJ (devMsg S) = true := by
  unfold devMsg
  rw [show wfJ (Json.obj [(strB "role", Json.str (strB "developer")),
      (strB "content", Json.str S)]) =
    (escOK (strB "role") && escOK (strB "developer") &&
      (escOK (strB "content") && escOK S && true)) from rfl, h]
  decide

theorem wfJ_userMsg (u : B) (h : escOK u = true) : wfJ (userMsg u) = true := by
  unfold userMsg
  rw [show wfJ (Json.obj [(strB "role", Json.str (strB "user")),
      (strB "content", Json.str u)]) =
    (escOK (strB "role") && escOK (strB "user") &&
      (escOK (strB "content") && escOK u && true)) from rfl, h]
  decide

theorem wfA_cons_eq (e : Json) (t : List Json) : wfA (e :: t) = (wfJ e && wfA t) := rfl

/-- The migrated `input` array is well-formed whenever the instruction text
and the original field list are. -/
theorem wfA_migratedInput (S : B) (fs1 : List (B × Json))
    (hS : escOK S = true) (hw1 : wfO fs1 = true) :
    wfA (migratedInput S fs1) = true := by
  cases hin : jLookup fs1 inputName with
  | none =>
    have heq : migratedInput S fs1 = [devMsg S] := by
      unfold migratedInput; rw [hin]
    rw [heq, wfA_cons_eq, wfJ_devMsg S hS]
    rfl
  | some v =>
    have hv : wfJ v = true := wfO_lookup fs1 inputName v hw1 hin
    cases v with
    | str u =>
      have heq : migratedInput S fs1 = [devMsg S, userMsg u] := by
        unfold migratedInput; rw [hin]
      rw [heq, wfA_cons_eq, wfJ_devMsg S hS, wfA_cons_eq,
        wfJ_userMsg u (by exact hv)]
      rfl
    | arr es =>
      have heq : migratedInput S fs1 = arrayPrepend (devMsg S) es := by
        unfold migratedInput; rw [hin]
      rw [heq, arrayPrepend_eq, wfA_cons_eq, wfJ_devMsg S hS]
      exact hv
    | null =>
      have heq : migratedInput S fs1 = [devMsg S] := by
        unfold migratedInput; rw [hin]
      rw [heq, wfA_cons_eq, wfJ_devMsg S hS]
      rfl
    | bool b =>
      have heq : migratedInput S fs1 = [devMsg S] := by
        unfold migratedInput; rw [hin]
      rw [heq, wfA_cons_eq, wfJ_devMsg S hS]
      rfl
    | num n =>
      have heq : migratedInput S fs1 = [devMsg S] := by
        unfold migratedInput; rw [hin]
      rw [heq, wfA_cons_eq, wfJ_devMsg S hS]
      rfl
    | obj fso =>
      have heq : migratedInput S fs1 = [devMsg S] := by
        unfold migratedInput; rw [hin]
      rw [heq, wfA_cons_eq, wfJ_devMsg S hS]
      rfl

/-- `rewriteInstr` preserves well-formedness of an object root. -/
theorem wfJ_rewriteInstr (fs : List (B × Json)) (hw : wfO fs = true) :
    wfJ (rewriteInstr (Json.obj fs)) = true := by
  cases hi : jLookup fs instrName with
  | none =>
    rw [rewriteInstr_skip fs (fun S h => by rw [hi] at h; simp at h)]
    exact hw
  | some v =>
    cases v with
    | str S =>
      rw [rewriteInstr_eq fs S hi]
      have hS : escOK S = true := wfO_lookup fs instrName _ hw hi
      have hw1 : wfO (eraseKey fs instrName) = true := wfO_eraseKey fs instrName hw
      exact wfO_setKey _ inputName _ hw1 (by decide)
        (wfA_migratedInput S _ hS hw1)
    | _ =>
      rw [rewriteInstr_skip fs (fun S h => by rw [hi] at h; simp at h)]
      exact hw

/-! ### C8: field characterization of the instruction rewrite -/

/-- After `rewriteInstr` (with no duplicated top-level `instructions`), the
root is an object that keeps its `prompt_cache_key`, carries no top-level
string `instructions`, and stays well-formed. -/
theorem rewriteInstr_fields (fs : List (B × Json)) (hone : countKey fs instrName ≤ 1) :
    ∃ fs2, rewriteInstr (Json.obj fs) = Json.obj fs2 ∧
      jLookup fs2 pckName = jLookup fs pckName ∧
      (∀ S, jLookup fs2 instrName ≠ some (Json.str S)) ∧
      (wfO fs = true → wfO fs2 = true) := by
  cases hi : jLookup fs instrName with
  | none =>
    refine ⟨fs, rewriteInstr_skip fs (fun S h => by rw [hi] at h; simp at h), rfl,
      ?_, fun h => h⟩
    intro S h
    rw [hi] at h
    simp at h
  | some v =>
    cases v with
    | str S =>
      refine ⟨setKey (eraseKey fs instrName) inputName
        (Json.arr (migratedInput S (eraseKey fs instrName))),
        rewriteInstr_eq fs S hi, ?_, ?_, ?_⟩
      · rw [jLookup_setKey_ne _ inputName pckName _ (by decide),
          jLookup_eraseKey_ne _ instrName pckName (by decide)]
      · intro S2 h
        rw [jLookup_setKey_ne _ inputName instrName _ (by decide),
          countKey_le_one_erase fs instrName hone] at h
        simp at h
      · intro hw
        have hS : escOK S = true := wfO_lookup fs instrName _ hw hi
        have hw1 := wfO_eraseKey fs instrName hw
        exact wfO_setKey _ inputName _ hw1 (by decide) (wfA_migratedInput S _ hS hw1)
    | _ =>
      refine ⟨fs, rewriteInstr_skip fs (fun S h => by rw [hi] at h; simp at h), rfl,
        ?_, fun h => h⟩
      intro S h
      rw [hi] at h
      simp at h

/-- The full tree mutation on the instruction-rewrite branch: the result is
a well-formed object holding `prompt_cache_key` and no top-level string
`instructions`. -/
theorem astMutate_sr_fields (key : B) (fs : List (B × Json)) (hp1 : Bool)
    (hone : countKey fs instrName ≤ 1) (hw : wfO fs = true) (hk : escOK key = true)
    (hpck : hp1 = true → ∃ v, jLookup fs pckName = some v) :
    ∃ fs2 v2, astMutate key true hp1 (Json.obj fs) = Json.obj fs2 ∧
      wfO fs2 = true ∧ jLookup fs2 pckName = some v2 ∧
      (∀ S, jLookup fs2 instrName ≠ some (Json.str S)) := by
  cases hp1 with
  | true =>
    have hmeq : astMutate key true true (Json.obj fs) = rewriteInstr (Json.obj fs) := rfl
    obtain ⟨v, hv⟩ := hpck rfl
    obtain ⟨fs2, heq, hpk, hni, hwp⟩ := rewriteInstr_fields fs hone
    exact ⟨fs2, v, hmeq.trans heq, hwp hw, hpk.trans hv, hni⟩
  | false =>
    have hmeq : astMutate key true false (Json.obj fs) =
        rewriteInstr (Json.obj (ensureFields fs key)) := rfl
    have hone2 : countKey (ensureFields fs key) instrName ≤ 1 := by
      rw [countKey_ensureFields fs key instrName (by decide)]
      exact hone
    obtain ⟨fs2, heq, hpk, hni, hwp⟩ := rewriteInstr_fields (ensureFields fs key) hone2
    have hpck2 : ∃ v, jLookup (ensureFields fs key) pckName = some v := by
      unfold ensureFields
      cases hpk0 : jLookup fs pckName with
      | none => exact ⟨Json.str key, jLookup_setKey_self fs pckName _⟩
      | some v =>
        cases v with
        | null => exact ⟨Json.str key, jLookup_setKey_self fs pckName _⟩
        | _ => exact ⟨_, hpk0⟩
    obtain ⟨v, hv⟩ := hpck2
    exact ⟨fs2, v, hmeq.trans heq, hwp (wfO_ensureFields fs key hw hk), hpk.trans hv, hni⟩

/-! ### C8: the claim -/

/-- Concrete request used by the C8 counterexample: the body's only
`prompt_cache_key` occurrence sits inside the `input` object, which the
instruction migration discards. -/
def rC8 : Request :=
  { method := strB "POST", path := strB "/v1/responses",
    body := some (strB "\x7b\"instructions\":\"s\",\"input\":\x7b\"prompt_cache_key\":1\x7d\x7d"),
    contentLength := 0, clHdr := none, teHdr := none, ceHdr := none,
    transferEncoding := [], authorization := strB "x", xApiKey := [],
    apiKey := [], userAgent := [], remoteAddr := [] }

/-- The pipeline's output body on `rC8`. -/
def outC8 : B := strB "\x7b\"input\":[\x7b\"role\":\"developer\",\"content\":\"s\"\x7d]\x7d"

/-- **C8 counterexample**: the pipeline's output body need not contain
`prompt_cache_key` (the migration discarded the nested occurrence that had
satisfied the scanner, and the ensure-step was skipped), and feeding that
output back through the pipeline with the same request identity changes it
again — the second pass fast-splices the derived key — so idempotence
fails. -/
theorem c8_idempotence_counterexample :
    (director gzNone rC8).body = some outC8 ∧
    hasJSONKey outC8 kPromptCacheKey = false ∧
    (director gzNone (director gzNone rC8)).body ≠ (director gzNone rC8).body := by
  refine ⟨rfl, by decide, ?_⟩
  decide

/-- **C8 (amended)**: on the instruction-rewrite branch, refeeding the
output through the pipeline with the same request identity is the identity,
provided the parsed top level has no duplicated `instructions` key and —
when the scanner already reports `prompt_cache_key` — actually holds the
field at top level (otherwise the counterexample applies).  The first pass
emits the serialized mutated tree, which provably still contains a
top-level `prompt_cache_key` and no top-level string `instructions`; the
second pass then either passes the bytes through untouched or re-parses
them (round trip) and re-serializes them unchanged. -/
theorem c8_refeed_idempotent (gz : B → Option B) (r : Request) (bs : B)
    (fs : List (B × Json))
    (hm : r.method = strB "POST") (hpath : isResponsesPath r.path = true)
    (hb : r.body = some bs) (hce : r.ceHdr ≠ some gzipB)
    (hsr1 : (hasJSONKey bs kInstrKey && !hasJSONKey bs kPrevRespIDKey) = true)
    (hparse : parse bs = some (Json.obj fs))
    (hw : wfO fs = true)
    (hone : countKey fs instrName ≤ 1)
    (hpck : hasJSONKey bs kPromptCacheKey = true → ∃ v, jLookup fs pckName = some v) :
    (director gz (director gz r)).body = (director gz r).body := by
  obtain ⟨fs2, v2, hmeq, hw2, hpk2, hni2⟩ := astMutate_sr_fields (derivePromptCacheKey r)
    fs (hasJSONKey bs kPromptCacheKey) hone hw (escOK_derive r) hpck
  have hdir1 : director gz r = setBody r (serialize (Json.obj fs2)) := by
    unfold director
    rw [hm, hpath]
    simp only [decide_True, Bool.and_self, if_true]
    unfold tweakBodySonic
    rw [tweak_nonGzip gz encodeModel r bs hb hce, tweakCore_sr encodeModel r bs hsr1,
      astPath_enc_some encodeModel r bs true (hasJSONKey bs kPromptCacheKey) (Json.obj fs)
        (serialize (Json.obj fs2)) hparse (by rw [hmeq]; rfl)]
  have hp2 : hasJSONKey (serialize (Json.obj fs2)) kPromptCacheKey = true :=
    hasPrompt_of_serialize fs2 v2 hpk2
  have hb2 : (setBody r (serialize (Json.obj fs2))).body = some (serialize (Json.obj fs2)) :=
    rfl
  have hce2 : (setBody r (serialize (Json.obj fs2))).ceHdr ≠ some gzipB := hce
  have hparse2 : parse (serialize (Json.obj fs2)) = some (Json.obj fs2) :=
    parse_serialize (Json.obj fs2) hw2
  have hdir2 : (director gz (setBody r (serialize (Json.obj fs2)))).body =
      some (serialize (Json.obj fs2)) := by
    unfold director
    rw [show (setBody r (serialize (Json.obj fs2))).method = r.method from rfl,
      show (setBody r (serialize (Json.obj fs2))).path = r.path from rfl, hm, hpath]
    simp only [decide_True, Bool.and_self, if_true]
    unfold tweakBodySonic
    rw [tweak_nonGzip gz encodeModel (setBody r (serialize (Json.obj fs2)))
      (serialize (Json.obj fs2)) hb2 hce2]
    cases hsr2 : (hasJSONKey (serialize (Json.obj fs2)) kInstrKey &&
        !hasJSONKey (serialize (Json.obj fs2)) kPrevRespIDKey) with
    | false =>
      rw [tweakCore_pass encodeModel _ _ hsr2 hp2]
      rfl
    | true =>
      have hmut2 : encodeModel (astMutate
          (derivePromptCacheKey (setBody r (serialize (Json.obj fs2)))) true true
          (Json.obj fs2)) = some (serialize (Json.obj fs2)) := by
        rw [show astMutate (derivePromptCacheKey (setBody r (serialize (Json.obj fs2))))
            true true (Json.obj fs2) = rewriteInstr (Json.obj fs2) from rfl,
          rewriteInstr_skip fs2 hni2]
        rfl
      rw [tweakCore_sr encodeModel _ _ hsr2, hp2,
        astPath_enc_some encodeModel _ _ true true (Json.obj fs2)
          (serialize (Json.obj fs2)) hparse2 hmut2]
      rfl
  rw [hdir1, hdir2]
  rfl

/-- Concrete request used by the C8 witness. -/
def rC8w : Request :=
  { method := strB "POST", path := strB "/v1/responses",
    body := some (strB "\x7b\"instructions\":\"s\",\"input\":\"hi\"\x7d"),
    contentLength := 0, clHdr := none, teHdr := none, ceHdr := none,
    transferEncoding := [], authorization := strB "x", xApiKey := [],
    apiKey := [], userAgent := [], remoteAddr := [] }

/-- Witness for C8 (amended) at a concrete instruction-carrying body. -/
theorem c8_refeed_idempotent_witness :
    (director gzNone (director gzNone rC8w)).body = (director gzNone rC8w).body :=
  c8_refeed_idempotent gzNone rC8w (strB "\x7b\"instructions\":\"s\",\"input\":\"hi\"\x7d")
    [(strB "instructions", Json.str (strB "s")), (strB "input", Json.str (strB "hi"))]
    rfl (by decide) rfl (by decide) (by decide) rfl (by decide) (by decide)
    (fun h => absurd h (by decide))
